import Mathlib

/-!
Verification development for the Carosync repository: a shallow embedding of
the Telegram ingestion engine (`src/index.ts`, class `TelegramChannelSync`),
the Bale platform syncer (`src/bale-sync.ts`, class `BaleSync`) and the Eitaa
platform syncer (class `EitaaSync`), together with theorems about the
cross-process coordination protocol they implement.

Conventions of the embedding:
* JavaScript `undefined`-able fields become `Option` values; the JS truthiness
  test `!x` on an optional boolean is `truthy x = false` with
  `truthy o = o.getD false`.
* A post record file name (`post_<id>.json` / `post_group_<gid>.json`) is
  modelled by the `PostId` type; decimal rendering of distinct numbers is
  injective, which the constructor-based type captures directly.
* File-system stores and per-platform ledgers are total functions from keys
  to optional values; writing a file is a pointwise functional update.
* Network sends are a parameter `sendF : SendReq → Except String Nat`
  returning the platform message id on success; a thrown exception is the
  `Except.error` case.  Observable behaviour of a cycle is collected in a
  chronological action list.
-/

namespace Carosync

/-- Identifier of a post record: either a plain message id or a synthetic
media-group id (`group_<groupedId>`).  `groupNone` renders the unreachable
JS string `"group_undefined"`. -/
inductive PostId where
  | msg : Nat → PostId
  | group : Nat → PostId
  | groupNone : PostId
deriving DecidableEq, Repr

/-- The `PostData` interface shared by `index.ts`, `bale-sync.ts` and
`eitaa-sync.ts`: the serialized form of one post record file. -/
structure PostData where
  id : PostId
  date : Option Nat
  editDate : Option Nat
  text : Option String
  media : List String
  childMessages : Option (List Nat)
  replyToMsgId : Option Nat
  replyToTopId : Option Nat
  deleted : Option Bool
  pinned : Option Bool
  pinnedDate : Option Nat
deriving DecidableEq, Repr

/-- JS truthiness of an optional boolean field (`undefined` and `false` are
falsy). -/
def truthy (o : Option Bool) : Bool := o.getD false

theorem truthy_iff (o : Option Bool) : truthy o = true ↔ o = some true := by
  cases o with
  | none => simp [truthy]
  | some b => cases b <;> simp [truthy]

/-- The sort key of `loadAndSortPosts`: `a.date || 0` (a missing `date`
sorts as epoch 0). -/
def dateKey (p : PostData) : Nat := p.date.getD 0

/-- The comparator relation behind `posts.sort((a, b) => (a.date || 0) - (b.date || 0))`. -/
def dateLE (a b : PostData) : Prop := dateKey a ≤ dateKey b

instance : DecidableRel dateLE := fun a b => Nat.decLe (dateKey a) (dateKey b)

instance : IsTotal PostData dateLE := ⟨fun a b => Nat.le_total (dateKey a) (dateKey b)⟩

instance : IsTrans PostData dateLE := ⟨fun _ _ _ h h2 => Nat.le_trans h h2⟩

/-- `loadAndSortPosts` (identical in `BaleSync` and `EitaaSync`): the records
parsed from the post files, sorted ascending by `date` with a missing `date`
treated as 0.  A comparator-driven JS sort produces a sorted permutation of
its input, modelled here by insertion sort. -/
def loadAndSortPosts (posts : List PostData) : List PostData :=
  posts.insertionSort dateLE

theorem loadAndSortPosts_perm (posts : List PostData) :
    (loadAndSortPosts posts).Perm posts :=
  List.perm_insertionSort dateLE posts

theorem loadAndSortPosts_sorted (posts : List PostData) :
    (loadAndSortPosts posts).Pairwise dateLE :=
  List.sorted_insertionSort dateLE posts

/-! ## Ingestion engine (`src/index.ts`, class `TelegramChannelSync`) -/

/-- A source message (`Api.Message`) as far as the ingestion engine reads it.
`media` is the (deterministic) list of file paths `downloadMedia` produces for
the message — empty when the message carries no downloadable media. -/
structure Msg where
  id : Nat
  date : Option Nat
  editDate : Option Nat
  text : Option String
  media : List String
  groupedId : Option Nat
  replyToMsgId : Option Nat
  replyToTopId : Option Nat
deriving DecidableEq, Repr

/-- The record store: the directory of `post_*.json` files, keyed by record
id.  `savePostData` is a pointwise update at `record.id`. -/
def Store : Type := PostId → Option PostData

def sempty : Store := fun _ => none

/-- `savePostData`: atomically overwrite the file for `data.id`. -/
def sput (s : Store) (p : PostData) : Store :=
  fun k => if k = p.id then some p else s k

/-- The record `processMessage` builds for a single (non-group) message. -/
def buildPostData (m : Msg) : PostData :=
  ⟨PostId.msg m.id, m.date, m.editDate, m.text, m.media, none,
   m.replyToMsgId, m.replyToTopId, none, none, none⟩

/-- `processMessage`: build the record from the message payload and overwrite
the stored record wholesale (also run for edit events). -/
def processMessage (s : Store) (m : Msg) : Store :=
  sput s (buildPostData m)

/-- Observable side effects of the ingestion engine recorded by the model. -/
inductive IngAction where
  | removeMediaDir : Nat → IngAction
deriving DecidableEq, Repr

/-- `handleDeletedMessage`: mark the stored record (if any) as deleted and
remove the id's media directory immediately. -/
def handleDeletedMessage (s : Store) (mid : Nat) : Store × List IngAction :=
  match s (PostId.msg mid) with
  | some p => (sput s { p with deleted := some true }, [IngAction.removeMediaDir mid])
  | none => (s, [IngAction.removeMediaDir mid])

/-- `handlePinnedMessageById`: set `pinned`/`pinnedDate` on an existing
record; otherwise fetch the message, process it, then pin the result. -/
def handlePinnedMessageById (fetch : Nat → Option Msg) (now : Nat)
    (s : Store) (mid : Nat) : Store :=
  match s (PostId.msg mid) with
  | some p => sput s { p with pinned := some true, pinnedDate := some now }
  | none =>
    match fetch mid with
    | some m =>
      let s2 := processMessage s m
      match s2 (PostId.msg mid) with
      | some p => sput s2 { p with pinned := some true, pinnedDate := some now }
      | none => s2
    | none => s

/-- The comparator of `messages.sort((a, b) => a.id - b.id)` inside
`processMediaGroup`. -/
def msgIdLE (a b : Msg) : Prop := a.id ≤ b.id

instance : DecidableRel msgIdLE := fun a b => Nat.decLe a.id b.id

instance : IsTotal Msg msgIdLE := ⟨fun a b => Nat.le_total a.id b.id⟩

instance : IsTrans Msg msgIdLE := ⟨fun _ _ _ h h2 => Nat.le_trans h h2⟩

def sortMsgs (ms : List Msg) : List Msg := ms.insertionSort msgIdLE

/-- The record id `group_<mainMessage.groupedId>`. -/
def groupPostId (o : Option Nat) : PostId :=
  match o with
  | some g => PostId.group g
  | none => PostId.groupNone

/-- The record `processMediaGroup` builds: messages sorted ascending by id,
the lowest-id message supplying the header fields, `childMessages` the sorted
constituent ids, media concatenated in sorted order.  `none` when the group
is empty (the early `if (!mainMessage) return`). -/
def buildGroupPostData (ms : List Msg) : Option PostData :=
  match sortMsgs ms with
  | [] => none
  | main :: rest =>
    some ⟨groupPostId main.groupedId, main.date, main.editDate, main.text,
          (main :: rest).flatMap Msg.media,
          some ((main :: rest).map Msg.id),
          main.replyToMsgId, main.replyToTopId, none, none, none⟩

/-! ### Media-group buffering (`handleMediaGroup`)

Each arrival of a message with a group key appends it to the in-memory buffer
for that key and schedules a wake-up one quiescence window (500 ms) later.
A wake-up finalizes the group only when the buffer holds more than one
message and its most recent entry is the very message whose wait just ended
(`currentGroup[currentGroup.length - 1] === message`); finalization empties
the buffer (`mediaGroups.delete`).  When all messages of a group arrive
within one quiescence window of one another, every arrival precedes every
wake-up and the wake-ups occur in arrival order, giving the canonical event
sequence `burstEvents`. -/

inductive GEvent where
  | arrive : Msg → GEvent
  | wake : Msg → GEvent
deriving DecidableEq, Repr

structure GroupState where
  buffer : List Msg
  out : List PostData
deriving DecidableEq, Repr

def gstep (s : GroupState) : GEvent → GroupState
  | GEvent.arrive m => ⟨s.buffer ++ [m], s.out⟩
  | GEvent.wake m =>
    if 1 < s.buffer.length ∧ s.buffer.getLast? = some m then
      match buildGroupPostData s.buffer with
      | some r => ⟨[], s.out ++ [r]⟩
      | none => ⟨[], s.out⟩
    else s

def runGroup (es : List GEvent) : GroupState :=
  es.foldl gstep ⟨[], []⟩

/-- The event sequence of a burst whose arrivals all fall within one
quiescence window of one another. -/
def burstEvents (ms : List Msg) : List GEvent :=
  ms.map GEvent.arrive ++ ms.map GEvent.wake

/-! ### Catch-up pass (`syncLatestPosts`) -/

structure SyncCounts where
  newPosts : Nat
  updatedPosts : Nat
  skippedPosts : Nat
deriving DecidableEq, Repr

/-- The comparison record built for a single message during catch-up
(`currentPostData`): media left empty, no group fields. -/
def currentSingleData (m : Msg) : PostData :=
  ⟨PostId.msg m.id, m.date, m.editDate, m.text, [], none,
   m.replyToMsgId, m.replyToTopId, none, none, none⟩

/-- The comparison record built for a media-group member during catch-up
(`currentGroupData`). -/
def currentGroupData (gid : Nat) (m : Msg) : PostData :=
  ⟨PostId.group gid, m.date, m.editDate, m.text, [], some [m.id],
   m.replyToMsgId, m.replyToTopId, none, none, none⟩

/-- `hasPostChanged`: the edit-detection comparator checks only `editDate`
(the other field comparisons are commented out in the source). -/
def hasPostChanged (existing current : PostData) : Bool :=
  decide (existing.editDate ≠ current.editDate)

/-- One iteration of the `for (const message of messages)` loop in
`syncLatestPosts`. -/
def syncStep (msgs : List Msg) (acc : Store × SyncCounts) (m : Msg) :
    Store × SyncCounts :=
  let store := acc.1
  let c := acc.2
  match m.groupedId with
  | some gid =>
    match store (PostId.group gid) with
    | none =>
      let groupMessages := msgs.filter (fun x => x.groupedId = some gid)
      if 0 < groupMessages.length then
        match buildGroupPostData groupMessages with
        | some r => (sput store r, { c with newPosts := c.newPosts + 1 })
        | none => (store, { c with newPosts := c.newPosts + 1 })
      else (store, c)
    | some existingGroup =>
      if hasPostChanged existingGroup (currentGroupData gid m) then
        let groupMessages := msgs.filter (fun x => x.groupedId = some gid)
        match buildGroupPostData groupMessages with
        | some r => (sput store r, { c with updatedPosts := c.updatedPosts + 1 })
        | none => (store, { c with updatedPosts := c.updatedPosts + 1 })
      else (store, { c with skippedPosts := c.skippedPosts + 1 })
  | none =>
    match store (PostId.msg m.id) with
    | none => (processMessage store m, { c with newPosts := c.newPosts + 1 })
    | some existingPost =>
      if hasPostChanged existingPost (currentSingleData m) then
        (processMessage store m, { c with updatedPosts := c.updatedPosts + 1 })
      else (store, { c with skippedPosts := c.skippedPosts + 1 })

/-- `syncLatestPosts`: one catch-up pass over the fetched messages (the
surrounding sync-status-ledger writes are modelled separately). -/
def syncLatestPosts (msgs : List Msg) (store : Store) : Store × SyncCounts :=
  msgs.foldl (syncStep msgs) (store, ⟨0, 0, 0⟩)

/-! ## Sync status ledger (`telegram_sync_status.json`) -/

/-- What a syncer sees when it reads the sync status ledger file. -/
inductive SyncStatusRead where
  | missing : SyncStatusRead
  | unreadable : SyncStatusRead
  | parsed : String → SyncStatusRead
deriving DecidableEq, Repr

/-- `isTelegramSyncInProgress` (identical in both syncers): `status.status
=== 'in_progress'`; any read or parse error yields `false` (fail-open). -/
def isTelegramSyncInProgress : SyncStatusRead → Bool
  | SyncStatusRead.parsed s => decide (s = "in_progress")
  | _ => false

/-! ## Bale platform syncer (`src/bale-sync.ts`, class `BaleSync`) -/

/-- `ProcessedPostMetadata`: one entry of `bale_processed.json`. -/
structure BaleMeta where
  date : Option Nat
  editDate : Option Nat
  deleted : Option Bool
  baleMessageId : Option Nat
deriving DecidableEq, Repr

/-- The Bale processed-set ledger (`Map<string, ProcessedPostMetadata>`),
keyed by `postData.id.toString()`. -/
def BaleLedger : Type := PostId → Option BaleMeta

def bempty : BaleLedger := fun _ => none

def bset (l : BaleLedger) (k : PostId) (v : BaleMeta) : BaleLedger :=
  fun k2 => if k2 = k then some v else l k2

/-- An outbound API request of a platform syncer (`sendFile` carries the
media path, the caption `postData.text` and the pin flag; `sendText`
carries the text and the pin flag). -/
inductive SendReq where
  | file : String → Option String → Bool → SendReq
  | text : String → Bool → SendReq
deriving DecidableEq, Repr

/-- Observable actions of a platform syncer cycle, chronological.  `sendItem`
and `apiDelete` are tagged with the post record being handled; the `Nat` of
`sendItem` is the platform message id the API returned. -/
inductive BAction where
  | readRecord : PostId → BAction
  | sendItem : PostId → SendReq → Nat → BAction
  | apiDelete : PostId → Nat → BAction
  | warnNoDeleteId : PostId → BAction
  | persistLedger : BAction
  | removeRecordFile : PostId → BAction
  | removeMediaFile : String → BAction
deriving DecidableEq, Repr

def isSendOf (k : PostId) : BAction → Bool
  | BAction.sendItem j _ _ => decide (j = k)
  | _ => false

def isDeleteOf (k : PostId) : BAction → Bool
  | BAction.apiDelete j _ => decide (j = k)
  | _ => false

/-- Result of handling one post inside a syncer pass: the in-memory ledger,
the actions performed, and whether an exception was raised (in which case the
ledger is the one from before the failing handler, exactly as in the source
where the exception propagates before any `processedPosts` update). -/
structure HRes (L : Type) where
  ledger : L
  actions : List BAction
  failed : Bool

/-- The `for (const mediaPath of postData.media)` loop of `BaleSync.syncPost`:
each successful send overwrites `baleMessageId` with the id the API returned;
a failed send throws at once. -/
def sendMediaList (sendF : SendReq → Except String Nat) (k : PostId)
    (caption : Option String) (pin : Bool) :
    List String → Option Nat → List BAction × Option Nat × Bool
  | [], acc => ([], acc, false)
  | mpath :: rest, _acc =>
    match sendF (SendReq.file mpath caption pin) with
    | Except.ok rid =>
      let r := sendMediaList sendF k caption pin rest (some rid)
      (BAction.sendItem k (SendReq.file mpath caption pin) rid :: r.1, r.2)
    | Except.error _ => ([], none, true)

/-- Tail of a successful `BaleSync.syncPost`: record the ledger entry for the
post (with the last returned Bale message id), persist the ledger, then
delete the post file and its media (`deletePostAndMedia`). -/
def finishSync (l : BaleLedger) (p : PostData) (mid : Option Nat)
    (acts : List BAction) : HRes BaleLedger :=
  ⟨bset l p.id ⟨p.date, p.editDate, p.deleted, mid⟩,
   acts ++ [BAction.persistLedger] ++ p.media.map BAction.removeMediaFile
        ++ [BAction.removeRecordFile p.id],
   false⟩

/-- Outcome of the media loop of `BaleSync.syncPost`: a failure re-throws
with the ledger untouched, success proceeds to the bookkeeping tail. -/
def syncPostMedia (l : BaleLedger) (p : PostData)
    (r : List BAction × Option Nat × Bool) : HRes BaleLedger :=
  if r.2.2 then ⟨l, r.1, true⟩ else finishSync l p r.2.1 r.1

/-- `BaleSync.syncPost`: send the media files in order (or the text), then
record, persist and clean up; any send exception re-throws before the ledger
is touched. -/
def syncPost (sendF : SendReq → Except String Nat) (l : BaleLedger)
    (p : PostData) : HRes BaleLedger :=
  if p.media.length ≠ 0 then
    syncPostMedia l p (sendMediaList sendF p.id p.text (truthy p.pinned) p.media none)
  else
    match p.text with
    | some t =>
      match sendF (SendReq.text t (truthy p.pinned)) with
      | Except.ok rid =>
        finishSync l p (some rid)
          [BAction.sendItem p.id (SendReq.text t (truthy p.pinned)) rid]
      | Except.error _ => ⟨l, [], true⟩
    | none => finishSync l p none []

/-- One post of the Bale watch loop body (`startWatching`): the per-id
reconciliation against the cached `ProcessedPostMetadata`.  Note that in the
edited-and-not-deleted branch the `editMessage` call is commented out in the
source: the ledger entry is updated (keeping the cached Bale message id) and
the local record dropped, but no API call is made. -/
def baleHandle (sendF : SendReq → Except String Nat)
    (delF : Nat → Except String Unit) (l : BaleLedger) (p : PostData) :
    HRes BaleLedger :=
  match l p.id with
  | none =>
    if truthy p.deleted = false then syncPost sendF l p
    else
      ⟨bset l p.id ⟨p.date, p.editDate, p.deleted, none⟩,
       [BAction.persistLedger, BAction.removeRecordFile p.id], false⟩
  | some c =>
    if c.editDate ≠ p.editDate ∨ c.deleted ≠ p.deleted then
      if truthy p.deleted = true ∧ truthy c.deleted = false then
        match c.baleMessageId with
        | some b =>
          match delF b with
          | Except.ok _ =>
            ⟨bset l p.id ⟨p.date, p.editDate, p.deleted, some b⟩,
             [BAction.apiDelete p.id b, BAction.persistLedger,
              BAction.removeRecordFile p.id], false⟩
          | Except.error _ => ⟨l, [BAction.apiDelete p.id b], true⟩
        | none =>
          ⟨bset l p.id ⟨p.date, p.editDate, p.deleted, none⟩,
           [BAction.warnNoDeleteId p.id, BAction.persistLedger,
            BAction.removeRecordFile p.id], false⟩
      else if p.editDate ≠ c.editDate ∧ truthy p.deleted = false then
        ⟨bset l p.id ⟨p.date, p.editDate, p.deleted, c.baleMessageId⟩,
         [BAction.persistLedger, BAction.removeRecordFile p.id], false⟩
      else ⟨l, [], false⟩
    else ⟨l, [BAction.removeRecordFile p.id], false⟩

/-- The `for (const postData of newPosts)` loop of the Bale watch cycle: the
first exception aborts the whole cycle. -/
def baleRunPosts (sendF : SendReq → Except String Nat)
    (delF : Nat → Except String Unit) :
    BaleLedger → List PostData → HRes BaleLedger
  | l, [] => ⟨l, [], false⟩
  | l, p :: ps =>
    let r := baleHandle sendF delF l p
    if r.failed then r
    else
      let r2 := baleRunPosts sendF delF r.ledger ps
      ⟨r2.ledger, r.actions ++ r2.actions, r2.failed⟩

/-- Outcome of one tick of the watch interval: final in-memory ledger (which
is also the last persisted state), actions, and the process exit code when
the catch handler fired. -/
structure CRes (L : Type) where
  ledger : L
  actions : List BAction
  exitCode : Option Nat

/-- The tail of a watch tick: on an exception the catch handler persists the
ledger and the process exits with code 1; otherwise the tick ends quietly. -/
def cycleWrap {L : Type} (reads : List BAction) (r : HRes L) : CRes L :=
  if r.failed then
    ⟨r.ledger, reads ++ r.actions ++ [BAction.persistLedger], some 1⟩
  else ⟨r.ledger, reads ++ r.actions, none⟩

/-- One tick of `BaleSync.startWatching`: skip entirely while the producer
ledger reads in-progress; otherwise read every post file, sort, reconcile
each record; on any exception persist the ledger and exit with code 1. -/
def baleWatchCycle (sendF : SendReq → Except String Nat)
    (delF : Nat → Except String Unit) (st : SyncStatusRead)
    (l : BaleLedger) (posts : List PostData) : CRes BaleLedger :=
  if isTelegramSyncInProgress st then ⟨l, [], none⟩
  else
    cycleWrap ((loadAndSortPosts posts).map (fun p => BAction.readRecord p.id))
      (baleRunPosts sendF delF l (loadAndSortPosts posts))

/-- The loop body of `BaleSync.syncExistingPosts` (initial catch-up): deliver
every non-deleted record not yet in the processed set. -/
def baleCatchupRun (sendF : SendReq → Except String Nat) :
    BaleLedger → List PostData → HRes BaleLedger
  | l, [] => ⟨l, [], false⟩
  | l, p :: ps =>
    if truthy p.deleted = false ∧ (l p.id).isNone then
      let r := syncPost sendF l p
      if r.failed then r
      else
        let r2 := baleCatchupRun sendF r.ledger ps
        ⟨r2.ledger, r.actions ++ r2.actions, r2.failed⟩
    else baleCatchupRun sendF l ps

/-- `BaleSync.syncExistingPosts`: load, sort, deliver unprocessed records. -/
def baleCatchupPass (sendF : SendReq → Except String Nat) (l : BaleLedger)
    (posts : List PostData) : HRes BaleLedger :=
  baleCatchupRun sendF l (loadAndSortPosts posts)

/-- The records a Bale catch-up pass actually delivers. -/
def baleCatchupDeliveries (l : BaleLedger) (posts : List PostData) :
    List PostData :=
  (loadAndSortPosts posts).filter
    (fun p => truthy p.deleted = false ∧ (l p.id).isNone)

/-- A step of a Bale syncer's life: an initial catch-up pass or one watch
tick.  Consecutive steps may belong to different process incarnations: the
ledger is persisted after every update and reloaded on restart, so the ledger
value simply flows from one step to the next. -/
inductive BStep where
  | watch : SyncStatusRead → List PostData → BStep
  | catchup : List PostData → BStep

def bstepPosts : BStep → List PostData
  | BStep.watch _ posts => posts
  | BStep.catchup posts => posts

def baleRunStep (sendF : SendReq → Except String Nat)
    (delF : Nat → Except String Unit) (l : BaleLedger) :
    BStep → BaleLedger × List BAction
  | BStep.watch st posts =>
    let c := baleWatchCycle sendF delF st l posts
    (c.ledger, c.actions)
  | BStep.catchup posts =>
    let c := baleCatchupPass sendF l posts
    (c.ledger, c.actions)

def baleRunSteps (sendF : SendReq → Except String Nat)
    (delF : Nat → Except String Unit) :
    BaleLedger → List BStep → BaleLedger × List BAction
  | l, [] => (l, [])
  | l, s :: ss =>
    let r := baleRunStep sendF delF l s
    let rest := baleRunSteps sendF delF r.1 ss
    (rest.1, r.2 ++ rest.2)

/-! ## Eitaa platform syncer (`src/eitaa-sync.ts`, class `EitaaSync`) -/

/-- The Eitaa processed-set ledger is a plain set of ids
(`Set<string>` persisted as an array). -/
def EitaaLedger : Type := PostId → Bool

def eempty : EitaaLedger := fun _ => false

def eadd (l : EitaaLedger) (k : PostId) : EitaaLedger :=
  fun k2 => if k2 = k then true else l k2

/-- Bookkeeping tail of `EitaaSync.syncPost`: add the id to the processed
set, persist it, delete the post file and its media. -/
def eitaaFinish (l : EitaaLedger) (p : PostData) (acts : List BAction) :
    HRes EitaaLedger :=
  ⟨eadd l p.id,
   acts ++ [BAction.persistLedger] ++ p.media.map BAction.removeMediaFile
       ++ [BAction.removeRecordFile p.id], false⟩

/-- Outcome of the media loop of `EitaaSync.syncPost`. -/
def eitaaSyncPostMedia (l : EitaaLedger) (p : PostData)
    (r : List BAction × Option Nat × Bool) : HRes EitaaLedger :=
  if r.2.2 then ⟨l, r.1, true⟩ else eitaaFinish l p r.1

/-- `EitaaSync.syncPost`: same send sequence as Bale's, but the returned ids
are discarded and the ledger only records membership. -/
def eitaaSyncPost (sendF : SendReq → Except String Nat) (l : EitaaLedger)
    (p : PostData) : HRes EitaaLedger :=
  if p.media.length ≠ 0 then
    eitaaSyncPostMedia l p (sendMediaList sendF p.id p.text (truthy p.pinned) p.media none)
  else
    match p.text with
    | some t =>
      match sendF (SendReq.text t (truthy p.pinned)) with
      | Except.ok rid =>
        eitaaFinish l p
          [BAction.sendItem p.id (SendReq.text t (truthy p.pinned)) rid]
      | Except.error _ => ⟨l, [], true⟩
    | none => eitaaFinish l p []

/-- The `for (const postData of unprocessedPosts)` loop of the Eitaa watch
cycle. -/
def eitaaSendList (sendF : SendReq → Except String Nat) :
    EitaaLedger → List PostData → HRes EitaaLedger
  | l, [] => ⟨l, [], false⟩
  | l, p :: ps =>
    let r := eitaaSyncPost sendF l p
    if r.failed then r
    else
      let r2 := eitaaSendList sendF r.ledger ps
      ⟨r2.ledger, r.actions ++ r2.actions, r2.failed⟩

/-- One tick of `EitaaSync.startWatching`: skip while the producer ledger
reads in-progress; otherwise read, sort, filter to non-deleted unprocessed
records, and deliver them; on any exception persist the ledger and exit 1. -/
def eitaaWatchCycle (sendF : SendReq → Except String Nat)
    (st : SyncStatusRead) (l : EitaaLedger) (posts : List PostData) :
    CRes EitaaLedger :=
  if isTelegramSyncInProgress st then ⟨l, [], none⟩
  else
    cycleWrap ((loadAndSortPosts posts).map (fun p => BAction.readRecord p.id))
      (eitaaSendList sendF l ((loadAndSortPosts posts).filter
        (fun p => truthy p.deleted = false ∧ l p.id = false)))

/-- The loop body of `EitaaSync.syncExistingPosts`. -/
def eitaaCatchupRun (sendF : SendReq → Except String Nat) :
    EitaaLedger → List PostData → HRes EitaaLedger
  | l, [] => ⟨l, [], false⟩
  | l, p :: ps =>
    if truthy p.deleted = false ∧ l p.id = false then
      let r := eitaaSyncPost sendF l p
      if r.failed then r
      else
        let r2 := eitaaCatchupRun sendF r.ledger ps
        ⟨r2.ledger, r.actions ++ r2.actions, r2.failed⟩
    else eitaaCatchupRun sendF l ps

def eitaaCatchupPass (sendF : SendReq → Except String Nat) (l : EitaaLedger)
    (posts : List PostData) : HRes EitaaLedger :=
  eitaaCatchupRun sendF l (loadAndSortPosts posts)

inductive EStep where
  | watch : SyncStatusRead → List PostData → EStep
  | catchup : List PostData → EStep

def estepPosts : EStep → List PostData
  | EStep.watch _ posts => posts
  | EStep.catchup posts => posts

def eitaaRunStep (sendF : SendReq → Except String Nat) (l : EitaaLedger) :
    EStep → EitaaLedger × List BAction
  | EStep.watch st posts =>
    let c := eitaaWatchCycle sendF st l posts
    (c.ledger, c.actions)
  | EStep.catchup posts =>
    let c := eitaaCatchupPass sendF l posts
    (c.ledger, c.actions)

def eitaaRunSteps (sendF : SendReq → Except String Nat) :
    EitaaLedger → List EStep → EitaaLedger × List BAction
  | l, [] => (l, [])
  | l, s :: ss =>
    let r := eitaaRunStep sendF l s
    let rest := eitaaRunSteps sendF r.1 ss
    (rest.1, r.2 ++ rest.2)

/-! ## Concrete senders and fixtures used by witnesses -/

/-- A sender whose every request succeeds with message id 0. -/
def okSend : SendReq → Except String Nat := fun _ => Except.ok 0

/-- A delete call that always succeeds. -/
def okDel : Nat → Except String Unit := fun _ => Except.ok ()

/-! ## Basic lemmas -/

theorem truthy_ne_of_false_of_true {a b : Option Bool}
    (ha : truthy a = false) (hb : truthy b = true) : a ≠ b := by
  intro h
  rw [h, hb] at ha
  exact Bool.false_ne_true ha.symm

theorem bset_eq (l : BaleLedger) (k : PostId) (v : BaleMeta) :
    bset l k v k = some v := by
  simp [bset]

theorem bset_ne (l : BaleLedger) (k j : PostId) (v : BaleMeta) (h : j ≠ k) :
    bset l k v j = l j := by
  simp [bset, h]

theorem eadd_preserve (l : EitaaLedger) (k j : PostId) (h : l j = true) :
    eadd l k j = true := by
  by_cases hj : j = k <;> simp [eadd, hj, h]

/-! ## C2: ordered delivery -/

/-- The records an Eitaa watch cycle actually delivers (the
`unprocessedPosts` filter). -/
def eitaaWatchDeliveries (l : EitaaLedger) (posts : List PostData) :
    List PostData :=
  (loadAndSortPosts posts).filter
    (fun p => truthy p.deleted = false ∧ l p.id = false)

def dateDistinct (a b : PostData) : Prop := dateKey a ≠ dateKey b

def dateLT (a b : PostData) : Prop := dateKey a < dateKey b

instance : DecidableRel dateDistinct :=
  fun _ _ => instDecidableNot
instance : DecidableRel dateLT := fun a b => Nat.decLt (dateKey a) (dateKey b)

theorem pairwise_lt_of_sorted_distinct {xs : List PostData}
    (hs : xs.Pairwise dateLE) (hne : xs.Pairwise dateDistinct) :
    xs.Pairwise dateLT :=
  (hs.and hne).imp (fun h => Nat.lt_of_le_of_ne h.1 h.2)

/-- C2: a Platform Syncer loads the record files, sorts them ascending by
`date` (missing `date` sorting as 0) and delivers them in that order; for
pairwise distinct `date` values both the Bale catch-up deliveries and the
Eitaa watch deliveries are strictly ascending in `date`, regardless of the
file enumeration order. -/
theorem c2_delivery_sorted_by_date (l : BaleLedger) (e : EitaaLedger)
    (posts : List PostData)
    (hdistinct : posts.Pairwise dateDistinct) :
    (loadAndSortPosts posts).Perm posts
    ∧ (loadAndSortPosts posts).Pairwise dateLE
    ∧ (baleCatchupDeliveries l posts).Pairwise dateLT
    ∧ (eitaaWatchDeliveries e posts).Pairwise dateLT := by
  have hperm := loadAndSortPosts_perm posts
  have hsorted := loadAndSortPosts_sorted posts
  have hne : (loadAndSortPosts posts).Pairwise dateDistinct :=
    (hperm.pairwise_iff (fun h e2 => h e2.symm)).mpr hdistinct
  have hlt := pairwise_lt_of_sorted_distinct hsorted hne
  exact ⟨hperm, hsorted, hlt.filter _, hlt.filter _⟩

def c2p100 : PostData :=
  ⟨PostId.msg 1, some 100, none, some "a", [], none, none, none, none, none, none⟩
def c2p300 : PostData :=
  ⟨PostId.msg 2, some 300, none, some "b", [], none, none, none, none, none, none⟩
def c2p200 : PostData :=
  ⟨PostId.msg 3, some 200, none, some "c", [], none, none, none, none, none, none⟩

/-- Records in file-creation order 100, 300, 200. -/
def c2posts : List PostData := [c2p100, c2p300, c2p200]

theorem c2_delivery_sorted_by_date_witness :
    (c2posts.Pairwise dateDistinct
      ∧ (baleCatchupDeliveries bempty c2posts).map dateKey = [100, 200, 300])
    ∧ (baleCatchupDeliveries bempty c2posts).Pairwise dateLT :=
  ⟨⟨by decide, by decide⟩,
   (c2_delivery_sorted_by_date bempty eempty c2posts (by decide)).2.2.1⟩

/-! ## C4: in-progress producer skips the whole consumer cycle -/

/-- C4: a watch cycle of either Platform Syncer that starts while the sync
status ledger reads `in_progress` performs no record file read and no send —
it returns immediately with no actions, an unchanged ledger and no exit. -/
theorem c4_in_progress_skips_cycle (sendF : SendReq → Except String Nat)
    (delF : Nat → Except String Unit) (st : SyncStatusRead)
    (l : BaleLedger) (e : EitaaLedger) (posts eposts : List PostData)
    (h : isTelegramSyncInProgress st = true) :
    baleWatchCycle sendF delF st l posts = ⟨l, [], none⟩
    ∧ eitaaWatchCycle sendF st e eposts = ⟨e, [], none⟩ := by
  constructor
  · simp [baleWatchCycle, h]
  · simp [eitaaWatchCycle, h]

theorem c4_in_progress_skips_cycle_witness :
    isTelegramSyncInProgress (SyncStatusRead.parsed "in_progress") = true
    ∧ baleWatchCycle okSend okDel (SyncStatusRead.parsed "in_progress")
        bempty c2posts = ⟨bempty, [], none⟩
    ∧ eitaaWatchCycle okSend (SyncStatusRead.parsed "in_progress")
        eempty c2posts = ⟨eempty, [], none⟩ :=
  ⟨by decide,
   (c4_in_progress_skips_cycle okSend okDel _ bempty eempty c2posts c2posts
     (by decide)).1,
   (c4_in_progress_skips_cycle okSend okDel _ bempty eempty c2posts c2posts
     (by decide)).2⟩

/-! ## C7: edit propagation on Bale -/

def c7cached : BaleMeta := ⟨some 5, some 1000, none, some 42⟩
def c7ledger : BaleLedger := bset bempty (PostId.msg 9) c7cached
def c7post : PostData :=
  ⟨PostId.msg 9, some 5, some 2000, some "hello", [], none, none, none,
   none, none, none⟩

/-- C7: observing a post whose `editDate` changed from 1000 to 2000 with
`deleted` unset and a cached Bale message id 42, the Bale watch loop performs
no outbound API call at all (the `editMessage` call is commented out in the
source): it only updates the ledger entry (keeping the cached outbound id)
and removes the local record file.  The claim says an edit call is issued. -/
theorem c7_edit_call_omitted :
    (baleHandle okSend okDel c7ledger c7post).actions
        = [BAction.persistLedger, BAction.removeRecordFile (PostId.msg 9)]
    ∧ (baleHandle okSend okDel c7ledger c7post).ledger (PostId.msg 9)
        = some ⟨some 5, some 2000, none, some 42⟩
    ∧ (baleHandle okSend okDel c7ledger c7post).failed = false := by
  refine ⟨by decide, by decide, by decide⟩

/-! ## C3: the `deleted` tombstone -/

def c3deleted : PostData :=
  ⟨PostId.msg 1, some 50, none, some "old", [], none, none, none,
   some true, none, none⟩
def c3store : Store := sput sempty c3deleted
def c3editMsg : Msg := ⟨1, some 50, some 60, some "new", [], none, none, none⟩

/-- C3 counterexample: a stored record with `deleted = true` that is
overwritten by `processMessage` (the handler run for edit events and catch-up
rewrites) ends up with `deleted` unset — the build of the fresh record never
carries the tombstone forward. -/
theorem c3_deleted_unset_by_edit :
    c3store (PostId.msg 1) = some c3deleted
    ∧ c3deleted.deleted = some true
    ∧ (processMessage c3store c3editMsg) (PostId.msg 1)
        = some (buildPostData c3editMsg)
    ∧ (buildPostData c3editMsg).deleted = none := by
  refine ⟨by decide, by decide, by decide, by decide⟩

/-- C3 amended: delete handling and pin handling of an existing record
preserve the tombstone (delete handling even sets it), but `processMessage`
— run for edit events of the same id and for catch-up rewrites after
`hasPostChanged` — overwrites the stored record with `deleted` unset. -/
theorem c3_deleted_flag_amended (s : Store) (mid : Nat) (p : PostData)
    (hp : s (PostId.msg mid) = some p) (hid : p.id = PostId.msg mid)
    (hdel : p.deleted = some true)
    (fetch : Nat → Option Msg) (now : Nat) (m : Msg) (hm : m.id = mid) :
    ((handleDeletedMessage s mid).1 (PostId.msg mid)).map PostData.deleted
        = some (some true)
    ∧ ((handlePinnedMessageById fetch now s mid) (PostId.msg mid)).map
        PostData.deleted = some (some true)
    ∧ ((processMessage s m) (PostId.msg mid)).map PostData.deleted
        = some none := by
  refine ⟨?_, ?_, ?_⟩
  · simp [handleDeletedMessage, hp, sput, hid]
  · simp [handlePinnedMessageById, hp, sput, hid, hdel]
  · simp [processMessage, sput, buildPostData, hm]

theorem c3_deleted_flag_amended_witness :
    (c3store (PostId.msg 1) = some c3deleted
      ∧ c3deleted.id = PostId.msg 1
      ∧ c3deleted.deleted = some true
      ∧ c3editMsg.id = 1)
    ∧ (((handleDeletedMessage c3store 1).1 (PostId.msg 1)).map PostData.deleted
          = some (some true)
      ∧ ((handlePinnedMessageById (fun _ => none) 77 c3store 1)
            (PostId.msg 1)).map PostData.deleted = some (some true)
      ∧ ((processMessage c3store c3editMsg) (PostId.msg 1)).map
            PostData.deleted = some none) :=
  ⟨⟨by decide, by decide, by decide, by decide⟩,
   c3_deleted_flag_amended c3store 1 c3deleted (by decide) (by decide)
     (by decide) (fun _ => none) 77 c3editMsg (by decide)⟩

/-! ## C5: media-group completeness -/

theorem foldl_arrivals (ms : List Msg) (s : GroupState) :
    (ms.map GEvent.arrive).foldl gstep s = ⟨s.buffer ++ ms, s.out⟩ := by
  induction ms generalizing s with
  | nil => simp [List.foldl]
  | cons m rest ih =>
    simp only [List.map, List.foldl, gstep]
    rw [ih]
    simp

theorem gstep_wake_stall (buf : List Msg) (out : List PostData) (w : Msg)
    (h : buf.getLast? ≠ some w) :
    gstep ⟨buf, out⟩ (GEvent.wake w) = ⟨buf, out⟩ := by
  simp only [gstep]
  rw [if_neg]
  rintro ⟨-, h2⟩
  exact h h2

theorem foldl_wakes_stall (buf : List Msg) (out : List PostData)
    (ws : List Msg) (h : ∀ m ∈ ws, buf.getLast? ≠ some m) :
    (ws.map GEvent.wake).foldl gstep ⟨buf, out⟩ = ⟨buf, out⟩ := by
  induction ws with
  | nil => rfl
  | cons w rest ih =>
    simp only [List.map, List.foldl]
    rw [gstep_wake_stall buf out w (h w (List.mem_cons_self _ _))]
    exact ih (fun m hm => h m (List.mem_cons_of_mem _ hm))

/-- C5: when all messages of a media group (two or more, pairwise distinct,
all carrying the same group key) arrive within one quiescence window of one
another, the buffering logic finalizes exactly one Post Record: its id is
`group_<groupedId>` and its `childMessages` are exactly the constituent
message ids sorted ascending. -/
theorem c5_media_group_single_record (ms : List Msg) (g : Nat)
    (hlen : 2 ≤ ms.length) (hnd : ms.Nodup)
    (hg : ∀ m ∈ ms, m.groupedId = some g) :
    ∃ r, buildGroupPostData ms = some r
      ∧ (runGroup (burstEvents ms)).out = [r]
      ∧ r.id = PostId.group g
      ∧ ∃ ids, r.childMessages = some ids
          ∧ ids.Perm (ms.map Msg.id)
          ∧ ids.Pairwise (fun a b => a ≤ b) := by
  have hne : ms ≠ [] := by
    intro h
    rw [h] at hlen
    exact absurd hlen (by decide)
  -- the record the group builds
  have hsortperm : (sortMsgs ms).Perm ms := List.perm_insertionSort msgIdLE ms
  have hsortne : sortMsgs ms ≠ [] := by
    intro h
    have hlen2 : (sortMsgs ms).length = ms.length := hsortperm.length_eq
    rw [h] at hlen2
    simp at hlen2
    omega
  obtain ⟨main, rest, hsort⟩ := List.exists_cons_of_ne_nil hsortne
  have hbuild : buildGroupPostData ms
      = some ⟨groupPostId main.groupedId, main.date, main.editDate, main.text,
              (main :: rest).flatMap Msg.media, some ((main :: rest).map Msg.id),
              main.replyToMsgId, main.replyToTopId, none, none, none⟩ := by
    rw [buildGroupPostData, hsort]
  refine ⟨_, hbuild, ?_, ?_, ?_⟩
  · -- exactly one finalization
    rw [runGroup, burstEvents, List.foldl_append, foldl_arrivals]
    simp only [List.nil_append]
    have hlast : ms.getLast? = some (ms.getLast hne) :=
      List.getLast?_eq_getLast ms hne
    have hms : ms.dropLast ++ [ms.getLast hne] = ms :=
      List.dropLast_append_getLast hne
    -- process the wake-ups of all but the last arrival: nothing fires
    have hsplit2 : ms.map GEvent.wake
        = ms.dropLast.map GEvent.wake ++ [GEvent.wake (ms.getLast hne)] := by
      conv_lhs => rw [← hms]
      simp
    rw [hsplit2, List.foldl_append]
    have hstall : ((ms.dropLast.map GEvent.wake).foldl gstep ⟨ms, []⟩)
        = ⟨ms, []⟩ := by
      apply foldl_wakes_stall
      intro m hm hcontra
      rw [hlast] at hcontra
      have hmeq : m = ms.getLast hne := Option.some_inj.mp hcontra.symm
      have hmem : ms.getLast hne ∈ ms.dropLast := hmeq ▸ hm
      have hnd2 : (ms.dropLast ++ [ms.getLast hne]).Nodup := by rw [hms]; exact hnd
      rw [List.nodup_append] at hnd2
      exact hnd2.2.2 hmem (List.mem_singleton_self _)
    rw [hstall]
    simp only [List.foldl, gstep]
    rw [if_pos ⟨by omega, hlast⟩, hbuild]
    simp
  · -- the record id is group_<g>
    have hmain : main ∈ ms := by
      have hm2 : main ∈ sortMsgs ms := by rw [hsort]; exact List.mem_cons_self _ _
      exact hsortperm.mem_iff.mp hm2
    simp [hg main hmain, groupPostId]
  · -- childMessages: all ids, ascending
    refine ⟨(main :: rest).map Msg.id, rfl, ?_, ?_⟩
    · have hperm2 : (main :: rest).Perm ms := by rw [← hsort]; exact hsortperm
      exact hperm2.map Msg.id
    · have hs : (sortMsgs ms).Pairwise msgIdLE :=
        List.sorted_insertionSort msgIdLE ms
      rw [hsort] at hs
      exact hs.map Msg.id (fun _ _ h => h)

def c5m10 : Msg := ⟨10, some 100, none, some "cap", ["a.jpg"], some 7, none, none⟩
def c5m11 : Msg := ⟨11, some 100, none, none, ["b.jpg"], some 7, none, none⟩

/-- Arrival order 11 then 10: the finalized record still lists child ids
ascending. -/
def c5msgs : List Msg := [c5m11, c5m10]

theorem c5_media_group_single_record_witness :
    (2 ≤ c5msgs.length ∧ c5msgs.Nodup
      ∧ ∀ m ∈ c5msgs, m.groupedId = some 7)
    ∧ (∃ r, buildGroupPostData c5msgs = some r
        ∧ (runGroup (burstEvents c5msgs)).out = [r]
        ∧ r.id = PostId.group 7
        ∧ ∃ ids, r.childMessages = some ids
            ∧ ids.Perm (c5msgs.map Msg.id)
            ∧ ids.Pairwise (fun a b => a ≤ b)) :=
  ⟨⟨by decide, by decide, by decide⟩,
   c5_media_group_single_record c5msgs 7 (by decide) (by decide) (by decide)⟩

/-! ## C6: idempotence of the catch-up pass -/

def c6m1 : Msg := ⟨1, some 10, none, some "cap", [], some 5, none, none⟩
def c6m2 : Msg := ⟨2, some 10, some 500, none, [], some 5, none, none⟩

/-- `getMessages` returns latest first: message 2, then message 1; both are
members of media group 5, with different `editDate` values. -/
def c6msgs : List Msg := [c6m2, c6m1]

/-- C6 counterexample: after a first catch-up pass over two messages of one
media group whose members carry different `editDate` values, the second pass
over identical source messages reports `updatedPosts = 1` (the group is
re-detected as changed because `hasPostChanged` compares the stored group
record, built from the lowest-id member, against each member in turn), not
`updatedPosts = 0` as claimed. -/
theorem c6_second_run_counts_updated :
    (syncLatestPosts c6msgs (syncLatestPosts c6msgs sempty).1).2
      = ⟨0, 1, 1⟩ := by decide

/-- The record-store key a catch-up iteration associates with a message: the
group file for a media-group member, the plain message file otherwise. -/
def keyOf (m : Msg) : PostId :=
  match m.groupedId with
  | some gid => PostId.group gid
  | none => PostId.msg m.id

/-- The stored record for a message's key exists and matches the message's
`editDate` — exactly the situation in which `syncLatestPosts` counts the
message as skipped. -/
def SkipReady (s : Store) (m : Msg) : Prop :=
  ∃ p, s (keyOf m) = some p ∧ p.editDate = m.editDate

theorem buildGroupPostData_isSome (ms : List Msg) (h : ms ≠ []) :
    ∃ r, buildGroupPostData ms = some r := by
  have hperm : (sortMsgs ms).Perm ms := List.perm_insertionSort msgIdLE ms
  have hne : sortMsgs ms ≠ [] := by
    intro h2
    have hlen := hperm.length_eq
    rw [h2] at hlen
    simp only [List.length_nil] at hlen
    exact h (List.length_eq_zero.mp hlen.symm)
  obtain ⟨main, rest, hsort⟩ := List.exists_cons_of_ne_nil hne
  exact ⟨_, by rw [buildGroupPostData, hsort]⟩

theorem buildGroupPostData_id (ms : List Msg) (g : Nat) (r : PostData)
    (h : buildGroupPostData ms = some r)
    (hg : ∀ x ∈ ms, x.groupedId = some g) :
    r.id = PostId.group g := by
  have hperm : (sortMsgs ms).Perm ms := List.perm_insertionSort msgIdLE ms
  obtain ⟨main, rest, hsort⟩ : ∃ main rest, sortMsgs ms = main :: rest := by
    cases hs : sortMsgs ms with
    | nil =>
      rw [buildGroupPostData, hs] at h
      exact absurd h (by simp)
    | cons a b => exact ⟨a, b, rfl⟩
  rw [buildGroupPostData, hsort] at h
  have hmain : main ∈ ms :=
    hperm.mem_iff.mp (by rw [hsort]; exact List.mem_cons_self _ _)
  rw [← Option.some.inj h]
  simp [groupPostId, hg main hmain]

theorem buildGroupPostData_editDate (ms : List Msg) (e : Option Nat)
    (r : PostData) (h : buildGroupPostData ms = some r)
    (he : ∀ x ∈ ms, x.editDate = e) :
    r.editDate = e := by
  have hperm : (sortMsgs ms).Perm ms := List.perm_insertionSort msgIdLE ms
  obtain ⟨main, rest, hsort⟩ : ∃ main rest, sortMsgs ms = main :: rest := by
    cases hs : sortMsgs ms with
    | nil =>
      rw [buildGroupPostData, hs] at h
      exact absurd h (by simp)
    | cons a b => exact ⟨a, b, rfl⟩
  rw [buildGroupPostData, hsort] at h
  have hmain : main ∈ ms :=
    hperm.mem_iff.mp (by rw [hsort]; exact List.mem_cons_self _ _)
  rw [← Option.some.inj h]
  exact he main hmain

/-- A catch-up iteration writes only its own message's key (the group file of
its group, or its own message file): every other key is untouched. -/
theorem syncStep_preserve_key (msgs : List Msg) (s : Store) (c : SyncCounts)
    (m : Msg) (k : PostId)
    (hg : ∀ g, m.groupedId = some g → k ≠ PostId.group g)
    (hm : m.groupedId = none → k ≠ PostId.msg m.id) :
    (syncStep msgs (s, c) m).1 k = s k := by
  cases hgid : m.groupedId with
  | none =>
    have hk := hm hgid
    simp only [syncStep, hgid]
    cases hs : s (PostId.msg m.id) with
    | none => simp [processMessage, sput, buildPostData, hk]
    | some existing =>
      by_cases hch : hasPostChanged existing (currentSingleData m) = true
      · simp [hch, processMessage, sput, buildPostData, hk]
      · have hchf : hasPostChanged existing (currentSingleData m) = false :=
          Bool.eq_false_iff.mpr hch
        simp [hchf]
  | some gid =>
    have hk := hg gid hgid
    have hfg : ∀ y ∈ msgs.filter (fun z => z.groupedId = some gid),
        y.groupedId = some gid :=
      fun y hy => of_decide_eq_true (List.mem_filter.mp hy).2
    cases hs : s (PostId.group gid) with
    | none =>
      by_cases hlen : 0 < (msgs.filter (fun z => z.groupedId = some gid)).length
      · cases hb : buildGroupPostData (msgs.filter (fun z => z.groupedId = some gid)) with
        | none => simp [syncStep, hgid, hs, hlen, hb]
        | some r =>
          have hid := buildGroupPostData_id _ gid r hb hfg
          simp [syncStep, hgid, hs, hlen, hb, sput, hid, hk]
      · simp [syncStep, hgid, hs, hlen]
    | some r0 =>
      by_cases hch : hasPostChanged r0 (currentGroupData gid m) = true
      · cases hb : buildGroupPostData (msgs.filter (fun z => z.groupedId = some gid)) with
        | none => simp [syncStep, hgid, hs, hch, hb]
        | some r =>
          have hid := buildGroupPostData_id _ gid r hb hfg
          simp [syncStep, hgid, hs, hch, hb, sput, hid, hk]
      · have hchf : hasPostChanged r0 (currentGroupData gid m) = false :=
          Bool.eq_false_iff.mpr hch
        simp [syncStep, hgid, hs, hchf]

theorem foldl_syncStep_preserve_key (msgs : List Msg) (k : PostId) :
    ∀ (l : List Msg) (s : Store) (c : SyncCounts),
      (∀ m ∈ l, (∀ g, m.groupedId = some g → k ≠ PostId.group g)
        ∧ (m.groupedId = none → k ≠ PostId.msg m.id)) →
      (l.foldl (syncStep msgs) (s, c)).1 k = s k := by
  intro l
  induction l with
  | nil => intro s c _; rfl
  | cons x rest ih =>
    intro s c h
    rw [List.foldl_cons]
    have hx := h x (List.mem_cons_self _ _)
    have hstep := syncStep_preserve_key msgs s c x k hx.1 hx.2
    have heta : syncStep msgs (s, c) x
        = ((syncStep msgs (s, c) x).1, (syncStep msgs (s, c) x).2) := rfl
    rw [heta, ih _ _ (fun y hy => h y (List.mem_cons_of_mem _ hy)), hstep]

/-- After a catch-up pass, every single (non-group) message of the pass has a
stored record under its own key carrying the message's `editDate`. -/
theorem foldl_syncStep_single_editDate (msgs : List Msg) :
    ∀ (l : List Msg) (s : Store) (c : SyncCounts),
      (l.map Msg.id).Nodup →
      ∀ m ∈ l, m.groupedId = none →
      ∃ p, (l.foldl (syncStep msgs) (s, c)).1 (PostId.msg m.id) = some p
          ∧ p.editDate = m.editDate := by
  intro l
  induction l with
  | nil =>
    intro s c _ m hm
    exact absurd hm (List.not_mem_nil m)
  | cons x rest ih =>
    intro s c hnd m hm hmg
    rw [List.map_cons, List.nodup_cons] at hnd
    rcases List.mem_cons.mp hm with hmx | hmr
    · subst hmx
      rw [List.foldl_cons]
      have heta : syncStep msgs (s, c) m
          = ((syncStep msgs (s, c) m).1, (syncStep msgs (s, c) m).2) := rfl
      have hpres := foldl_syncStep_preserve_key msgs (PostId.msg m.id) rest
        (syncStep msgs (s, c) m).1 (syncStep msgs (s, c) m).2
        (by
          intro y hy
          refine ⟨fun g _ h => PostId.noConfusion h, fun _ h => ?_⟩
          have hyne : y.id ≠ m.id := by
            intro h2
            exact hnd.1 (h2 ▸ List.mem_map_of_mem Msg.id hy)
          exact hyne (PostId.msg.inj h).symm)
      rw [heta, hpres]
      simp only [syncStep, hmg]
      cases hs : s (PostId.msg m.id) with
      | none =>
        refine ⟨buildPostData m, ?_, rfl⟩
        simp [processMessage, sput, buildPostData]
      | some existing =>
        by_cases hch : hasPostChanged existing (currentSingleData m) = true
        · refine ⟨buildPostData m, ?_, rfl⟩
          simp [hch, processMessage, sput, buildPostData]
        · have hchf : hasPostChanged existing (currentSingleData m) = false :=
            Bool.eq_false_iff.mpr hch
          have heq : existing.editDate = m.editDate := by
            have h2 := hchf
            simp [hasPostChanged, currentSingleData] at h2
            exact h2
          refine ⟨existing, ?_, heq⟩
          simp [hchf, hs]
    · rw [List.foldl_cons]
      exact ih _ _ hnd.2 m hmr hmg

/-- After a catch-up pass containing a member of media group `g0` whose
members all share `editDate = e`, the stored group record carries `e` — the
first member encountered creates it (or rewrites a stale one), every later
member either skips it or rewrites it with the same group build. -/
theorem foldl_syncStep_group_editDate (msgs : List Msg) (g0 : Nat)
    (e : Option Nat)
    (huni : ∀ m ∈ msgs, m.groupedId = some g0 → m.editDate = e) :
    ∀ (l : List Msg) (s : Store) (c : SyncCounts),
      (∀ m ∈ l, m ∈ msgs) →
      ((∃ m0 ∈ l, m0.groupedId = some g0)
        ∨ (∃ r, s (PostId.group g0) = some r ∧ r.editDate = e)) →
      ∃ r, (l.foldl (syncStep msgs) (s, c)).1 (PostId.group g0) = some r
          ∧ r.editDate = e := by
  intro l
  induction l with
  | nil =>
    intro s c _ hstart
    rcases hstart with ⟨m0, hm0, _⟩ | hr
    · exact absurd hm0 (List.not_mem_nil m0)
    · exact hr
  | cons x rest ih =>
    intro s c hsub hstart
    rw [List.foldl_cons]
    have heta : syncStep msgs (s, c) x
        = ((syncStep msgs (s, c) x).1, (syncStep msgs (s, c) x).2) := rfl
    rw [heta]
    have hxmem : x ∈ msgs := hsub x (List.mem_cons_self _ _)
    have hsubr : ∀ m ∈ rest, m ∈ msgs :=
      fun y hy => hsub y (List.mem_cons_of_mem _ hy)
    by_cases hxg : x.groupedId = some g0
    · -- x belongs to the group: after its step the stored record matches e
      have hfe : ∀ y ∈ msgs.filter (fun z => z.groupedId = some g0),
          y.editDate = e := by
        intro y hy
        have hy2 := List.mem_filter.mp hy
        exact huni y hy2.1 (of_decide_eq_true hy2.2)
      have hfg : ∀ y ∈ msgs.filter (fun z => z.groupedId = some g0),
          y.groupedId = some g0 :=
        fun y hy => of_decide_eq_true (List.mem_filter.mp hy).2
      have hfne : msgs.filter (fun z => z.groupedId = some g0) ≠ [] := by
        intro hnil
        have hxin : x ∈ msgs.filter (fun z => z.groupedId = some g0) :=
          List.mem_filter.mpr ⟨hxmem, decide_eq_true hxg⟩
        rw [hnil] at hxin
        exact absurd hxin (List.not_mem_nil x)
      obtain ⟨rG, hrG⟩ := buildGroupPostData_isSome _ hfne
      have hrGid := buildGroupPostData_id _ g0 rG hrG hfg
      have hrGe := buildGroupPostData_editDate _ e rG hrG hfe
      have hafter : ∃ r, (syncStep msgs (s, c) x).1 (PostId.group g0) = some r
          ∧ r.editDate = e := by
        cases hs : s (PostId.group g0) with
        | none =>
          have hlen : 0 < (msgs.filter (fun z => z.groupedId = some g0)).length :=
            List.length_pos.mpr hfne
          refine ⟨rG, ?_, hrGe⟩
          simp [syncStep, hxg, hs, hlen, hrG, sput, hrGid]
        | some r0 =>
          by_cases hch : hasPostChanged r0 (currentGroupData g0 x) = true
          · refine ⟨rG, ?_, hrGe⟩
            simp [syncStep, hxg, hs, hch, hrG, sput, hrGid]
          · have hchf : hasPostChanged r0 (currentGroupData g0 x) = false :=
              Bool.eq_false_iff.mpr hch
            have hr0e : r0.editDate = e := by
              have h2 := hchf
              simp [hasPostChanged, currentGroupData] at h2
              rw [h2]
              exact huni x hxmem hxg
            refine ⟨r0, ?_, hr0e⟩
            simp [syncStep, hxg, hs, hchf]
      exact ih _ _ hsubr (Or.inr hafter)
    · -- x is no member of the group: its step never touches the group key
      have hpres : (syncStep msgs (s, c) x).1 (PostId.group g0)
          = s (PostId.group g0) := by
        apply syncStep_preserve_key
        · intro g hgx h
          rw [PostId.group.inj h] at hxg
          exact hxg hgx
        · intro _ h
          exact PostId.noConfusion h
      rcases hstart with ⟨m0, hm0, hm0g⟩ | ⟨r, hr, hre⟩
      · have hm0r : m0 ∈ rest := by
          rcases List.mem_cons.mp hm0 with h | h
          · exact absurd (h ▸ hm0g) hxg
          · exact h
        exact ih _ _ hsubr (Or.inl ⟨m0, hm0r, hm0g⟩)
      · exact ih _ _ hsubr (Or.inr ⟨r, by rw [hpres]; exact hr, hre⟩)

theorem syncStep_skip (msgs : List Msg) (s : Store) (c : SyncCounts)
    (m : Msg) (h : SkipReady s m) :
    syncStep msgs (s, c) m
      = (s, { c with skippedPosts := c.skippedPosts + 1 }) := by
  obtain ⟨p, hp, hpe⟩ := h
  cases hgid : m.groupedId with
  | none =>
    have hkey : keyOf m = PostId.msg m.id := by simp [keyOf, hgid]
    rw [hkey] at hp
    simp only [syncStep, hgid, hp]
    have hchf : hasPostChanged p (currentSingleData m) = false := by
      simp [hasPostChanged, currentSingleData, hpe]
    simp [hchf]
  | some gid =>
    have hkey : keyOf m = PostId.group gid := by simp [keyOf, hgid]
    rw [hkey] at hp
    simp only [syncStep, hgid, hp]
    have hchf : hasPostChanged p (currentGroupData gid m) = false := by
      simp [hasPostChanged, currentGroupData, hpe]
    simp [hchf]

theorem foldl_syncStep_skip_all (msgs : List Msg) :
    ∀ (l : List Msg) (s : Store) (c : SyncCounts),
      (∀ m ∈ l, SkipReady s m) →
      l.foldl (syncStep msgs) (s, c)
        = (s, { c with skippedPosts := c.skippedPosts + l.length }) := by
  intro l
  induction l with
  | nil => intro s c _; simp
  | cons m rest ih =>
    intro s c h
    rw [List.foldl_cons, syncStep_skip msgs s c m (h m (List.mem_cons_self _ _)),
      ih s _ (fun y hy => h y (List.mem_cons_of_mem _ hy))]
    simp only [List.length_cons]
    have h3 : c.skippedPosts + 1 + rest.length
        = c.skippedPosts + (rest.length + 1) := by omega
    simp [h3]

/-- C6 amended: a second catch-up pass over the same source messages yields
`newPosts = 0`, `updatedPosts = 0`, every message skipped, and every stored
Post Record unchanged, provided the message ids are pairwise distinct and
all messages sharing a group key carry the same `editDate`; a media group
whose members carry differing `editDate` values breaks the original claim
(see the counterexample: the second run recounts it as updated). -/
theorem c6_idempotent_second_run (msgs : List Msg) (s0 : Store)
    (hnd : (msgs.map Msg.id).Nodup)
    (huni : ∀ m ∈ msgs, ∀ m2 ∈ msgs, m.groupedId ≠ none →
        m2.groupedId = m.groupedId → m2.editDate = m.editDate) :
    syncLatestPosts msgs (syncLatestPosts msgs s0).1
      = ((syncLatestPosts msgs s0).1, ⟨0, 0, msgs.length⟩) := by
  have hready : ∀ m ∈ msgs,
      SkipReady (msgs.foldl (syncStep msgs) (s0, ⟨0, 0, 0⟩)).1 m := by
    intro m hm
    cases hgid : m.groupedId with
    | none =>
      have hkey : keyOf m = PostId.msg m.id := by simp [keyOf, hgid]
      obtain ⟨p, hp, hpe⟩ := foldl_syncStep_single_editDate msgs msgs s0
        ⟨0, 0, 0⟩ hnd m hm hgid
      exact ⟨p, by rw [hkey]; exact hp, hpe⟩
    | some gid =>
      have hkey : keyOf m = PostId.group gid := by simp [keyOf, hgid]
      have huni2 : ∀ m2 ∈ msgs, m2.groupedId = some gid →
          m2.editDate = m.editDate := by
        intro m2 hm2 hg2
        exact huni m hm m2 hm2 (by rw [hgid]; simp) (by rw [hg2, hgid])
      obtain ⟨r, hr, hre⟩ := foldl_syncStep_group_editDate msgs gid m.editDate
        huni2 msgs s0 ⟨0, 0, 0⟩ (fun y hy => hy) (Or.inl ⟨m, hm, hgid⟩)
      exact ⟨r, by rw [hkey]; exact hr, hre⟩
  have hskip := foldl_syncStep_skip_all msgs msgs
    (msgs.foldl (syncStep msgs) (s0, ⟨0, 0, 0⟩)).1 ⟨0, 0, 0⟩ hready
  show msgs.foldl (syncStep msgs)
      ((msgs.foldl (syncStep msgs) (s0, ⟨0, 0, 0⟩)).1, ⟨0, 0, 0⟩)
    = ((msgs.foldl (syncStep msgs) (s0, ⟨0, 0, 0⟩)).1, ⟨0, 0, msgs.length⟩)
  rw [hskip]
  simp

def c6g1 : Msg := ⟨31, some 20, some 400, some "alb", [], some 9, none, none⟩
def c6g2 : Msg := ⟨32, some 20, some 400, none, [], some 9, none, none⟩
def c6sing : Msg := ⟨33, some 21, none, some "solo", [], none, none, none⟩

/-- A uniform-`editDate` media group (latest first) plus a single message. -/
def c6mix : List Msg := [c6g2, c6g1, c6sing]

theorem c6_idempotent_second_run_witness :
    ((c6mix.map Msg.id).Nodup
      ∧ (∀ m ∈ c6mix, ∀ m2 ∈ c6mix, m.groupedId ≠ none →
          m2.groupedId = m.groupedId → m2.editDate = m.editDate))
    ∧ syncLatestPosts c6mix (syncLatestPosts c6mix sempty).1
        = ((syncLatestPosts c6mix sempty).1, ⟨0, 0, c6mix.length⟩) :=
  ⟨⟨by decide, by decide⟩,
   c6_idempotent_second_run c6mix sempty (by decide) (by decide)⟩

/-! ## Per-post lemmas for the Bale and Eitaa syncer loops -/

theorem tags_of_neutral {pid : PostId} {a : BAction}
    (hs : ∀ k, isSendOf k a = false) (hd : ∀ k, isDeleteOf k a = false) :
    (∀ k, isSendOf k a = true → k = pid)
    ∧ (∀ k, isDeleteOf k a = true → k = pid) := by
  constructor
  · intro k hk
    rw [hs k] at hk
    exact absurd hk Bool.false_ne_true
  · intro k hk
    rw [hd k] at hk
    exact absurd hk Bool.false_ne_true

theorem tags_of_sendItem (pid : PostId) (req : SendReq) (rid : Nat) :
    (∀ k, isSendOf k (BAction.sendItem pid req rid) = true → k = pid)
    ∧ (∀ k, isDeleteOf k (BAction.sendItem pid req rid) = true → k = pid) := by
  constructor
  · intro k hk
    exact (of_decide_eq_true hk).symm
  · intro k hk
    exact absurd hk Bool.false_ne_true

theorem tags_of_apiDelete (pid : PostId) (b : Nat) :
    (∀ k, isSendOf k (BAction.apiDelete pid b) = true → k = pid)
    ∧ (∀ k, isDeleteOf k (BAction.apiDelete pid b) = true → k = pid) := by
  constructor
  · intro k hk
    exact absurd hk Bool.false_ne_true
  · intro k hk
    exact (of_decide_eq_true hk).symm

theorem eq_false_of_tag {b : Bool} {k pid : PostId}
    (h : b = true → k = pid) (hne : k ≠ pid) : b = false := by
  cases hb : b
  · rfl
  · exact absurd (h hb) hne

/-- Every action a post handler emits is neutral or tagged with that post's
id. -/
def Tagged (pid : PostId) (acts : List BAction) : Prop :=
  ∀ a ∈ acts, (∀ k, isSendOf k a = true → k = pid)
    ∧ (∀ k, isDeleteOf k a = true → k = pid)

theorem tagged_nil (pid : PostId) : Tagged pid [] := by
  intro a ha
  exact absurd ha (List.not_mem_nil a)

theorem tagged_append {pid : PostId} {xs ys : List BAction}
    (hx : Tagged pid xs) (hy : Tagged pid ys) : Tagged pid (xs ++ ys) := by
  intro a ha
  rcases List.mem_append.mp ha with h | h
  · exact hx a h
  · exact hy a h

theorem sendMediaList_tagged (sendF : SendReq → Except String Nat)
    (pid : PostId) (caption : Option String) (pin : Bool) :
    ∀ (paths : List String) (acc : Option Nat),
      Tagged pid (sendMediaList sendF pid caption pin paths acc).1 := by
  intro paths
  induction paths with
  | nil =>
    intro acc a ha
    exact absurd ha (List.not_mem_nil a)
  | cons pth rest ih =>
    intro acc a ha
    cases hr : sendF (SendReq.file pth caption pin) with
    | ok rid =>
      simp only [sendMediaList, hr] at ha
      rcases List.mem_cons.mp ha with h1 | h2
      · subst h1
        exact tags_of_sendItem pid _ rid
      · exact ih (some rid) a h2
    | error e =>
      simp only [sendMediaList, hr] at ha
      exact absurd ha (List.not_mem_nil a)

theorem finishSync_tagged (l : BaleLedger) (p : PostData) (mid : Option Nat)
    (acts : List BAction) (hacts : Tagged p.id acts) :
    Tagged p.id (finishSync l p mid acts).actions := by
  intro a ha
  simp only [finishSync] at ha
  rcases List.mem_append.mp ha with ha2 | ha2
  · rcases List.mem_append.mp ha2 with ha3 | ha3
    · rcases List.mem_append.mp ha3 with ha4 | ha4
      · exact hacts a ha4
      · rw [List.mem_singleton.mp ha4]
        exact tags_of_neutral (fun _ => rfl) (fun _ => rfl)
    · obtain ⟨x, _, hx⟩ := List.mem_map.mp ha3
      rw [← hx]
      exact tags_of_neutral (fun _ => rfl) (fun _ => rfl)
  · rw [List.mem_singleton.mp ha2]
    exact tags_of_neutral (fun _ => rfl) (fun _ => rfl)

theorem syncPostMedia_tagged (l : BaleLedger) (p : PostData)
    (r : List BAction × Option Nat × Bool) (hr : Tagged p.id r.1) :
    Tagged p.id (syncPostMedia l p r).actions := by
  unfold syncPostMedia
  split
  · exact hr
  · exact finishSync_tagged l p _ _ hr

theorem syncPost_tagged (sendF : SendReq → Except String Nat)
    (l : BaleLedger) (p : PostData) :
    Tagged p.id (syncPost sendF l p).actions := by
  unfold syncPost
  split
  · exact syncPostMedia_tagged l p _
      (sendMediaList_tagged sendF p.id p.text (truthy p.pinned) p.media none)
  · split
    · split
      · apply finishSync_tagged
        intro a ha
        rw [List.mem_singleton.mp ha]
        exact tags_of_sendItem p.id _ _
      · exact tagged_nil p.id
    · exact finishSync_tagged l p none [] (tagged_nil p.id)

theorem baleHandle_tagged (sendF : SendReq → Except String Nat)
    (delF : Nat → Except String Unit) (l : BaleLedger) (p : PostData) :
    Tagged p.id (baleHandle sendF delF l p).actions := by
  unfold baleHandle
  split
  · -- no cached entry
    split
    · exact syncPost_tagged sendF l p
    · intro a ha
      rcases List.mem_cons.mp ha with h1 | h1
      · rw [h1]; exact tags_of_neutral (fun _ => rfl) (fun _ => rfl)
      · rw [List.mem_singleton.mp h1]
        exact tags_of_neutral (fun _ => rfl) (fun _ => rfl)
  · -- cached entry
    split
    · split
      · -- newly-deleted branch
        split
        · split
          · intro a ha
            rcases List.mem_cons.mp ha with h1 | h1
            · rw [h1]; exact tags_of_apiDelete p.id _
            · rcases List.mem_cons.mp h1 with h2 | h2
              · rw [h2]; exact tags_of_neutral (fun _ => rfl) (fun _ => rfl)
              · rw [List.mem_singleton.mp h2]
                exact tags_of_neutral (fun _ => rfl) (fun _ => rfl)
          · intro a ha
            rw [List.mem_singleton.mp ha]
            exact tags_of_apiDelete p.id _
        · intro a ha
          rcases List.mem_cons.mp ha with h1 | h1
          · rw [h1]; exact tags_of_neutral (fun _ => rfl) (fun _ => rfl)
          · rcases List.mem_cons.mp h1 with h2 | h2
            · rw [h2]; exact tags_of_neutral (fun _ => rfl) (fun _ => rfl)
            · rw [List.mem_singleton.mp h2]
              exact tags_of_neutral (fun _ => rfl) (fun _ => rfl)
      · split
        · intro a ha
          rcases List.mem_cons.mp ha with h1 | h1
          · rw [h1]; exact tags_of_neutral (fun _ => rfl) (fun _ => rfl)
          · rw [List.mem_singleton.mp h1]
            exact tags_of_neutral (fun _ => rfl) (fun _ => rfl)
        · exact tagged_nil p.id
    · intro a ha
      rw [List.mem_singleton.mp ha]
      exact tags_of_neutral (fun _ => rfl) (fun _ => rfl)

theorem eitaaFinish_tagged (l : EitaaLedger) (p : PostData)
    (acts : List BAction) (hacts : Tagged p.id acts) :
    Tagged p.id (eitaaFinish l p acts).actions := by
  intro a ha
  simp only [eitaaFinish] at ha
  rcases List.mem_append.mp ha with ha2 | ha2
  · rcases List.mem_append.mp ha2 with ha3 | ha3
    · rcases List.mem_append.mp ha3 with ha4 | ha4
      · exact hacts a ha4
      · rw [List.mem_singleton.mp ha4]
        exact tags_of_neutral (fun _ => rfl) (fun _ => rfl)
    · obtain ⟨x, _, hx⟩ := List.mem_map.mp ha3
      rw [← hx]
      exact tags_of_neutral (fun _ => rfl) (fun _ => rfl)
  · rw [List.mem_singleton.mp ha2]
    exact tags_of_neutral (fun _ => rfl) (fun _ => rfl)

theorem eitaaSyncPost_tagged (sendF : SendReq → Except String Nat)
    (l : EitaaLedger) (p : PostData) :
    Tagged p.id (eitaaSyncPost sendF l p).actions := by
  unfold eitaaSyncPost
  split
  · unfold eitaaSyncPostMedia
    split
    · exact sendMediaList_tagged sendF p.id p.text (truthy p.pinned) p.media none
    · exact eitaaFinish_tagged l p _
        (sendMediaList_tagged sendF p.id p.text (truthy p.pinned) p.media none)
  · split
    · split
      · apply eitaaFinish_tagged
        intro a ha
        rw [List.mem_singleton.mp ha]
        exact tags_of_sendItem p.id _ _
      · exact tagged_nil p.id
    · exact eitaaFinish_tagged l p [] (tagged_nil p.id)

theorem syncPost_ledger_ne (sendF : SendReq → Except String Nat)
    (l : BaleLedger) (p : PostData) (k : PostId) (h : k ≠ p.id) :
    (syncPost sendF l p).ledger k = l k := by
  unfold syncPost
  split
  · unfold syncPostMedia
    split
    · rfl
    · simp [finishSync, bset, h]
  · split
    · split
      · simp [finishSync, bset, h]
      · rfl
    · simp [finishSync, bset, h]

theorem syncPost_failed_or (sendF : SendReq → Except String Nat)
    (l : BaleLedger) (p : PostData) :
    (syncPost sendF l p).failed = false ∨ (syncPost sendF l p).ledger = l := by
  unfold syncPost
  split
  · unfold syncPostMedia
    split
    · right; rfl
    · left; simp [finishSync]
  · split
    · split
      · left; simp [finishSync]
      · right; rfl
    · left; simp [finishSync]

theorem syncPost_failed_ledger (sendF : SendReq → Except String Nat)
    (l : BaleLedger) (p : PostData)
    (h : (syncPost sendF l p).failed = true) :
    (syncPost sendF l p).ledger = l := by
  rcases syncPost_failed_or sendF l p with h2 | h2
  · exact absurd (h2.symm.trans h) Bool.false_ne_true
  · exact h2

theorem baleHandle_ledger_ne (sendF : SendReq → Except String Nat)
    (delF : Nat → Except String Unit) (l : BaleLedger) (p : PostData)
    (k : PostId) (h : k ≠ p.id) :
    (baleHandle sendF delF l p).ledger k = l k := by
  unfold baleHandle
  split
  · split
    · exact syncPost_ledger_ne sendF l p k h
    · simp [bset, h]
  · split
    · split
      · split
        · split
          · simp [bset, h]
          · rfl
        · simp [bset, h]
      · split
        · simp [bset, h]
        · rfl
    · rfl

theorem baleHandle_failed_or (sendF : SendReq → Except String Nat)
    (delF : Nat → Except String Unit) (l : BaleLedger) (p : PostData) :
    (baleHandle sendF delF l p).failed = false
    ∨ (baleHandle sendF delF l p).ledger = l := by
  unfold baleHandle
  split
  · split
    · exact syncPost_failed_or sendF l p
    · left; rfl
  · split
    · split
      · split
        · split
          · left; rfl
          · right; rfl
        · left; rfl
      · split
        · left; rfl
        · left; rfl
    · left; rfl

theorem baleHandle_failed_ledger (sendF : SendReq → Except String Nat)
    (delF : Nat → Except String Unit) (l : BaleLedger) (p : PostData)
    (h : (baleHandle sendF delF l p).failed = true) :
    (baleHandle sendF delF l p).ledger = l := by
  rcases baleHandle_failed_or sendF delF l p with h2 | h2
  · exact absurd (h2.symm.trans h) Bool.false_ne_true
  · exact h2

theorem eitaaSyncPost_ledger_mono (sendF : SendReq → Except String Nat)
    (l : EitaaLedger) (p : PostData) (k : PostId) (h : l k = true) :
    (eitaaSyncPost sendF l p).ledger k = true := by
  unfold eitaaSyncPost
  split
  · unfold eitaaSyncPostMedia
    split
    · exact h
    · exact eadd_preserve l p.id k h
  · split
    · split
      · exact eadd_preserve l p.id k h
      · exact h
    · exact eadd_preserve l p.id k h

/-- The unchanged-record branch of the Bale watch loop: an id whose cached
`editDate`/`deleted` pair matches the on-disk record is only cleaned up, with
no API traffic and no ledger change. -/
theorem baleHandle_unchanged (sendF : SendReq → Except String Nat)
    (delF : Nat → Except String Unit) (l : BaleLedger) (p : PostData)
    (c : BaleMeta) (hc : l p.id = some c) (he : c.editDate = p.editDate)
    (hd : c.deleted = p.deleted) :
    baleHandle sendF delF l p = ⟨l, [BAction.removeRecordFile p.id], false⟩ := by
  simp only [baleHandle, hc]
  rw [if_neg (by simp [he, hd])]

/-- Once the cached entry carries a truthy `deleted` flag, observing a
record which is still deleted performs no API call and leaves the ledger
untouched. -/
theorem baleHandle_tombstone (sendF : SendReq → Except String Nat)
    (delF : Nat → Except String Unit) (l : BaleLedger) (p : PostData)
    (c : BaleMeta) (hc : l p.id = some c) (hcd : truthy c.deleted = true)
    (hpd : truthy p.deleted = true) :
    baleHandle sendF delF l p = ⟨l, [], false⟩
    ∨ baleHandle sendF delF l p
        = ⟨l, [BAction.removeRecordFile p.id], false⟩ := by
  simp only [baleHandle, hc]
  by_cases hch : c.editDate ≠ p.editDate ∨ c.deleted ≠ p.deleted
  · rw [if_pos hch, if_neg (by simp [hcd]), if_neg (by simp [hpd])]
    left
    rfl
  · rw [if_neg hch]
    right
    rfl

/-! ## Run-level invariant lemmas -/

/-- No action in the list is a send or a delete for record `k`. -/
def NoTraffic (k : PostId) (acts : List BAction) : Prop :=
  ∀ a ∈ acts, isSendOf k a = false ∧ isDeleteOf k a = false

theorem noTraffic_nil (k : PostId) : NoTraffic k [] := by
  intro a ha
  exact absurd ha (List.not_mem_nil a)

theorem noTraffic_append {k : PostId} {xs ys : List BAction}
    (hx : NoTraffic k xs) (hy : NoTraffic k ys) : NoTraffic k (xs ++ ys) := by
  intro a ha
  rcases List.mem_append.mp ha with h | h
  · exact hx a h
  · exact hy a h

theorem noTraffic_of_tagged {k pid : PostId} {acts : List BAction}
    (h : Tagged pid acts) (hne : k ≠ pid) : NoTraffic k acts := by
  intro a ha
  exact ⟨eq_false_of_tag ((h a ha).1 k) hne, eq_false_of_tag ((h a ha).2 k) hne⟩

theorem baleRunPosts_inv (sendF : SendReq → Except String Nat)
    (delF : Nat → Except String Unit) (Inv : BaleLedger → Prop) (k : PostId)
    (Pp : PostData → Prop)
    (hstep : ∀ l p, Inv l → Pp p →
      Inv (baleHandle sendF delF l p).ledger
        ∧ NoTraffic k (baleHandle sendF delF l p).actions) :
    ∀ (ps : List PostData) (l : BaleLedger), Inv l → (∀ p ∈ ps, Pp p) →
      Inv (baleRunPosts sendF delF l ps).ledger
        ∧ NoTraffic k (baleRunPosts sendF delF l ps).actions := by
  intro ps
  induction ps with
  | nil =>
    intro l hI _
    exact ⟨hI, noTraffic_nil k⟩
  | cons p rest ih =>
    intro l hI hP
    have h1 := hstep l p hI (hP p (List.mem_cons_self _ _))
    have h2 := ih (baleHandle sendF delF l p).ledger h1.1
      (fun q hq => hP q (List.mem_cons_of_mem _ hq))
    simp only [baleRunPosts]
    split
    · exact h1
    · exact ⟨h2.1, noTraffic_append h1.2 h2.2⟩

theorem baleCatchupRun_inv (sendF : SendReq → Except String Nat)
    (Inv : BaleLedger → Prop) (k : PostId) (Pp : PostData → Prop)
    (hstep : ∀ l p, Inv l → Pp p →
      truthy p.deleted = false ∧ (l p.id).isNone →
      Inv (syncPost sendF l p).ledger
        ∧ NoTraffic k (syncPost sendF l p).actions) :
    ∀ (ps : List PostData) (l : BaleLedger), Inv l → (∀ p ∈ ps, Pp p) →
      Inv (baleCatchupRun sendF l ps).ledger
        ∧ NoTraffic k (baleCatchupRun sendF l ps).actions := by
  intro ps
  induction ps with
  | nil =>
    intro l hI _
    exact ⟨hI, noTraffic_nil k⟩
  | cons p rest ih =>
    intro l hI hP
    simp only [baleCatchupRun]
    split
    · have h1 := hstep l p hI (hP p (List.mem_cons_self _ _)) (by assumption)
      have h2 := ih (syncPost sendF l p).ledger h1.1
        (fun q hq => hP q (List.mem_cons_of_mem _ hq))
      split
      · exact h1
      · exact ⟨h2.1, noTraffic_append h1.2 h2.2⟩
    · exact ih l hI (fun q hq => hP q (List.mem_cons_of_mem _ hq))

theorem reads_noTraffic (k : PostId) (ps : List PostData) :
    NoTraffic k (ps.map (fun p => BAction.readRecord p.id)) := by
  intro a ha
  obtain ⟨x, _, hx⟩ := List.mem_map.mp ha
  rw [← hx]
  exact ⟨rfl, rfl⟩

theorem persist_noTraffic (k : PostId) : NoTraffic k [BAction.persistLedger] := by
  intro a ha
  rw [List.mem_singleton.mp ha]
  exact ⟨rfl, rfl⟩

theorem baleWatchCycle_inv (sendF : SendReq → Except String Nat)
    (delF : Nat → Except String Unit) (Inv : BaleLedger → Prop) (k : PostId)
    (Pp : PostData → Prop)
    (hstep : ∀ l p, Inv l → Pp p →
      Inv (baleHandle sendF delF l p).ledger
        ∧ NoTraffic k (baleHandle sendF delF l p).actions)
    (st : SyncStatusRead) (posts : List PostData) (l : BaleLedger)
    (hI : Inv l) (hP : ∀ p ∈ posts, Pp p) :
    Inv (baleWatchCycle sendF delF st l posts).ledger
      ∧ NoTraffic k (baleWatchCycle sendF delF st l posts).actions := by
  have hP2 : ∀ p ∈ loadAndSortPosts posts, Pp p :=
    fun p hp => hP p ((loadAndSortPosts_perm posts).mem_iff.mp hp)
  have hrun := baleRunPosts_inv sendF delF Inv k Pp hstep
    (loadAndSortPosts posts) l hI hP2
  unfold baleWatchCycle
  split
  · exact ⟨hI, noTraffic_nil k⟩
  · unfold cycleWrap
    split
    · exact ⟨hrun.1, noTraffic_append
        (noTraffic_append (reads_noTraffic k _) hrun.2) (persist_noTraffic k)⟩
    · exact ⟨hrun.1, noTraffic_append (reads_noTraffic k _) hrun.2⟩

theorem baleCatchupPass_inv (sendF : SendReq → Except String Nat)
    (Inv : BaleLedger → Prop) (k : PostId) (Pp : PostData → Prop)
    (hstep : ∀ l p, Inv l → Pp p →
      truthy p.deleted = false ∧ (l p.id).isNone →
      Inv (syncPost sendF l p).ledger
        ∧ NoTraffic k (syncPost sendF l p).actions)
    (posts : List PostData) (l : BaleLedger)
    (hI : Inv l) (hP : ∀ p ∈ posts, Pp p) :
    Inv (baleCatchupPass sendF l posts).ledger
      ∧ NoTraffic k (baleCatchupPass sendF l posts).actions := by
  have hP2 : ∀ p ∈ loadAndSortPosts posts, Pp p :=
    fun p hp => hP p ((loadAndSortPosts_perm posts).mem_iff.mp hp)
  exact baleCatchupRun_inv sendF Inv k Pp hstep (loadAndSortPosts posts) l hI hP2

theorem baleRunSteps_inv (sendF : SendReq → Except String Nat)
    (delF : Nat → Except String Unit) (Inv : BaleLedger → Prop) (k : PostId)
    (Pp : PostData → Prop)
    (hstepW : ∀ l p, Inv l → Pp p →
      Inv (baleHandle sendF delF l p).ledger
        ∧ NoTraffic k (baleHandle sendF delF l p).actions)
    (hstepC : ∀ l p, Inv l → Pp p →
      truthy p.deleted = false ∧ (l p.id).isNone →
      Inv (syncPost sendF l p).ledger
        ∧ NoTraffic k (syncPost sendF l p).actions) :
    ∀ (steps : List BStep) (l : BaleLedger), Inv l →
      (∀ s ∈ steps, ∀ p ∈ bstepPosts s, Pp p) →
      Inv (baleRunSteps sendF delF l steps).1
        ∧ NoTraffic k (baleRunSteps sendF delF l steps).2 := by
  intro steps
  induction steps with
  | nil =>
    intro l hI _
    exact ⟨hI, noTraffic_nil k⟩
  | cons s rest ih =>
    intro l hI hP
    have h1 : Inv (baleRunStep sendF delF l s).1
        ∧ NoTraffic k (baleRunStep sendF delF l s).2 := by
      cases s with
      | watch st posts =>
        exact baleWatchCycle_inv sendF delF Inv k Pp hstepW st posts l hI
          (hP _ (List.mem_cons_self _ _))
      | catchup posts =>
        exact baleCatchupPass_inv sendF Inv k Pp hstepC posts l hI
          (hP _ (List.mem_cons_self _ _))
    have h2 := ih (baleRunStep sendF delF l s).1 h1.1
      (fun s2 hs2 => hP s2 (List.mem_cons_of_mem _ hs2))
    exact ⟨h2.1, noTraffic_append h1.2 h2.2⟩

/-! ### Eitaa run-level lemmas -/

theorem eitaaSendList_inv (sendF : SendReq → Except String Nat) (k : PostId)
    (Pp : PostData → Prop)
    (hstep : ∀ l p, l k = true → Pp p →
      NoTraffic k (eitaaSyncPost sendF l p).actions) :
    ∀ (ps : List PostData) (l : EitaaLedger), l k = true →
      (∀ p ∈ ps, Pp p) →
      (eitaaSendList sendF l ps).ledger k = true
        ∧ NoTraffic k (eitaaSendList sendF l ps).actions := by
  intro ps
  induction ps with
  | nil =>
    intro l hI _
    exact ⟨hI, noTraffic_nil k⟩
  | cons p rest ih =>
    intro l hI hP
    have hl1 : (eitaaSyncPost sendF l p).ledger k = true :=
      eitaaSyncPost_ledger_mono sendF l p k hI
    have hn1 := hstep l p hI (hP p (List.mem_cons_self _ _))
    have h2 := ih (eitaaSyncPost sendF l p).ledger hl1
      (fun q hq => hP q (List.mem_cons_of_mem _ hq))
    simp only [eitaaSendList]
    split
    · exact ⟨hl1, hn1⟩
    · exact ⟨h2.1, noTraffic_append hn1 h2.2⟩

theorem eitaaCatchupRun_inv (sendF : SendReq → Except String Nat) (k : PostId) :
    ∀ (ps : List PostData) (l : EitaaLedger), l k = true →
      (eitaaCatchupRun sendF l ps).ledger k = true
        ∧ NoTraffic k (eitaaCatchupRun sendF l ps).actions := by
  intro ps
  induction ps with
  | nil =>
    intro l hI
    exact ⟨hI, noTraffic_nil k⟩
  | cons p rest ih =>
    intro l hI
    simp only [eitaaCatchupRun]
    split
    · -- the guard holds, so this post is not yet processed: its id is not k
      have hpne : p.id ≠ k := by
        intro h
        rename_i hguard
        rw [h, hI] at hguard
        exact absurd hguard.2 (by simp)
      have hl1 : (eitaaSyncPost sendF l p).ledger k = true :=
        eitaaSyncPost_ledger_mono sendF l p k hI
      have hn1 : NoTraffic k (eitaaSyncPost sendF l p).actions :=
        noTraffic_of_tagged (eitaaSyncPost_tagged sendF l p)
          (fun h => hpne h.symm)
      have h2 := ih (eitaaSyncPost sendF l p).ledger hl1
      split
      · exact ⟨hl1, hn1⟩
      · exact ⟨h2.1, noTraffic_append hn1 h2.2⟩
    · exact ih l hI

theorem eitaaWatchCycle_inv (sendF : SendReq → Except String Nat)
    (st : SyncStatusRead) (posts : List PostData) (l : EitaaLedger)
    (k : PostId) (hI : l k = true) :
    (eitaaWatchCycle sendF st l posts).ledger k = true
      ∧ NoTraffic k (eitaaWatchCycle sendF st l posts).actions := by
  have hstep : ∀ (l2 : EitaaLedger) p, l2 k = true → (p.id ≠ k) →
      NoTraffic k (eitaaSyncPost sendF l2 p).actions := by
    intro l2 p _ hne
    exact noTraffic_of_tagged (eitaaSyncPost_tagged sendF l2 p)
      (fun h => hne h.symm)
  have hP : ∀ p ∈ (loadAndSortPosts posts).filter
      (fun p => truthy p.deleted = false ∧ l p.id = false), p.id ≠ k := by
    intro p hp h
    have := (List.mem_filter.mp hp).2
    rw [decide_eq_true_eq] at this
    rw [h, hI] at this
    exact absurd this.2 (by simp)
  have hrun := eitaaSendList_inv sendF k (fun p => p.id ≠ k) hstep
    ((loadAndSortPosts posts).filter
      (fun p => truthy p.deleted = false ∧ l p.id = false)) l hI hP
  unfold eitaaWatchCycle
  split
  · exact ⟨hI, noTraffic_nil k⟩
  · unfold cycleWrap
    split
    · exact ⟨hrun.1, noTraffic_append
        (noTraffic_append (reads_noTraffic k _) hrun.2) (persist_noTraffic k)⟩
    · exact ⟨hrun.1, noTraffic_append (reads_noTraffic k _) hrun.2⟩

theorem eitaaRunSteps_inv (sendF : SendReq → Except String Nat) (k : PostId) :
    ∀ (steps : List EStep) (l : EitaaLedger), l k = true →
      (eitaaRunSteps sendF l steps).1 k = true
        ∧ NoTraffic k (eitaaRunSteps sendF l steps).2 := by
  intro steps
  induction steps with
  | nil =>
    intro l hI
    exact ⟨hI, noTraffic_nil k⟩
  | cons s rest ih =>
    intro l hI
    have h1 : (eitaaRunStep sendF l s).1 k = true
        ∧ NoTraffic k (eitaaRunStep sendF l s).2 := by
      cases s with
      | watch st posts => exact eitaaWatchCycle_inv sendF st posts l k hI
      | catchup posts =>
        exact eitaaCatchupRun_inv sendF k (loadAndSortPosts posts) l hI
    have h2 := ih (eitaaRunStep sendF l s).1 h1.1
    exact ⟨h2.1, noTraffic_append h1.2 h2.2⟩

/-! ## C1: at-most-once delivery per platform -/

/-- C1: once an id is recorded in a platform's processed-set ledger, any
number of later catch-up passes and watch cycles (including those of
restarted processes, which resume from the persisted ledger value) that
observe the id with an unchanged `editDate`/`deleted` pair perform no further
send for that record, and the ledger entry survives unchanged.  For Eitaa,
membership alone suppresses every future send. -/
theorem c1_at_most_once_per_platform (sendF : SendReq → Except String Nat)
    (delF : Nat → Except String Unit) (k : PostId) (c : BaleMeta)
    (l0 : BaleLedger) (e0 : EitaaLedger)
    (steps : List BStep) (esteps : List EStep)
    (hb : l0 k = some c)
    (hposts : ∀ s ∈ steps, ∀ p ∈ bstepPosts s, p.id = k →
        p.editDate = c.editDate ∧ p.deleted = c.deleted)
    (he : e0 k = true) :
    ((baleRunSteps sendF delF l0 steps).1 k = some c
      ∧ ∀ a ∈ (baleRunSteps sendF delF l0 steps).2, isSendOf k a = false)
    ∧ ((eitaaRunSteps sendF e0 esteps).1 k = true
      ∧ ∀ a ∈ (eitaaRunSteps sendF e0 esteps).2, isSendOf k a = false) := by
  constructor
  · have hstepW : ∀ (l : BaleLedger) (p : PostData), l k = some c →
        (p.id = k → p.editDate = c.editDate ∧ p.deleted = c.deleted) →
        (baleHandle sendF delF l p).ledger k = some c
          ∧ NoTraffic k (baleHandle sendF delF l p).actions := by
      intro l p hI hPp
      by_cases hpk : p.id = k
      · obtain ⟨he2, hd2⟩ := hPp hpk
        have hc2 : l p.id = some c := by rw [hpk]; exact hI
        rw [baleHandle_unchanged sendF delF l p c hc2 he2.symm hd2.symm]
        refine ⟨hI, ?_⟩
        intro a ha
        rw [List.mem_singleton.mp ha]
        exact ⟨rfl, rfl⟩
      · refine ⟨?_, ?_⟩
        · rw [baleHandle_ledger_ne sendF delF l p k (fun h => hpk h.symm)]
          exact hI
        · exact noTraffic_of_tagged (baleHandle_tagged sendF delF l p)
            (fun h => hpk h.symm)
    have hstepC : ∀ (l : BaleLedger) (p : PostData), l k = some c →
        (p.id = k → p.editDate = c.editDate ∧ p.deleted = c.deleted) →
        truthy p.deleted = false ∧ (l p.id).isNone →
        (syncPost sendF l p).ledger k = some c
          ∧ NoTraffic k (syncPost sendF l p).actions := by
      intro l p hI _ hguard
      by_cases hpk : p.id = k
      · exfalso
        rw [hpk, hI] at hguard
        exact absurd hguard.2 (by simp)
      · refine ⟨?_, ?_⟩
        · rw [syncPost_ledger_ne sendF l p k (fun h => hpk h.symm)]
          exact hI
        · exact noTraffic_of_tagged (syncPost_tagged sendF l p)
            (fun h => hpk h.symm)
    have hmain := baleRunSteps_inv sendF delF (fun l => l k = some c) k
      (fun p => p.id = k → p.editDate = c.editDate ∧ p.deleted = c.deleted)
      hstepW hstepC steps l0 hb hposts
    exact ⟨hmain.1, fun a ha => (hmain.2 a ha).1⟩
  · have hmain := eitaaRunSteps_inv sendF k esteps e0 he
    exact ⟨hmain.1, fun a ha => (hmain.2 a ha).1⟩

def c1meta : BaleMeta := ⟨some 100, some 7, none, some 55⟩
def c1post : PostData :=
  ⟨PostId.msg 3, some 100, some 7, some "t", [], none, none, none,
   none, none, none⟩
def c1bl : BaleLedger := bset bempty (PostId.msg 3) c1meta
def c1el : EitaaLedger := eadd eempty (PostId.msg 3)
def c1steps : List BStep :=
  [BStep.catchup [c1post],
   BStep.watch (SyncStatusRead.parsed "completed") [c1post],
   BStep.watch SyncStatusRead.missing [c1post]]
def c1esteps : List EStep :=
  [EStep.catchup [c1post],
   EStep.watch (SyncStatusRead.parsed "completed") [c1post],
   EStep.watch SyncStatusRead.missing [c1post]]

theorem c1_at_most_once_per_platform_witness :
    (c1bl (PostId.msg 3) = some c1meta
      ∧ (∀ s ∈ c1steps, ∀ p ∈ bstepPosts s, p.id = PostId.msg 3 →
          p.editDate = c1meta.editDate ∧ p.deleted = c1meta.deleted)
      ∧ c1el (PostId.msg 3) = true)
    ∧ (((baleRunSteps okSend okDel c1bl c1steps).1 (PostId.msg 3) = some c1meta
        ∧ ∀ a ∈ (baleRunSteps okSend okDel c1bl c1steps).2,
            isSendOf (PostId.msg 3) a = false)
      ∧ ((eitaaRunSteps okSend c1el c1esteps).1 (PostId.msg 3) = true
        ∧ ∀ a ∈ (eitaaRunSteps okSend c1el c1esteps).2,
            isSendOf (PostId.msg 3) a = false)) :=
  ⟨⟨by decide, by decide, by decide⟩,
   c1_at_most_once_per_platform okSend okDel (PostId.msg 3) c1meta c1bl c1el
     c1steps c1esteps (by decide) (by decide) (by decide)⟩

/-! ## C8: delete propagation, exactly one delete call -/

/-- The freshly-deleted branch of the Bale watch loop, with a cached outbound
message id. -/
theorem baleHandle_delete_branch (sendF : SendReq → Except String Nat)
    (delF : Nat → Except String Unit) (l : BaleLedger) (q : PostData)
    (c : BaleMeta) (b : Nat) (hc : l q.id = some c)
    (hcd : truthy c.deleted = false) (hcb : c.baleMessageId = some b)
    (hqd : truthy q.deleted = true) (hdel : delF b = Except.ok ()) :
    baleHandle sendF delF l q
      = ⟨bset l q.id ⟨q.date, q.editDate, q.deleted, some b⟩,
         [BAction.apiDelete q.id b, BAction.persistLedger,
          BAction.removeRecordFile q.id], false⟩ := by
  have hne : c.deleted ≠ q.deleted := truthy_ne_of_false_of_true hcd hqd
  simp only [baleHandle, hc, hcb, hdel]
  rw [if_pos (Or.inr hne), if_pos ⟨hqd, hcd⟩]

/-- C8: a source delete event marks the stored record deleted and removes the
id's media directory at once; a Bale syncer holding a cached outbound id for
that record issues exactly one delete call with that id, updates its ledger
entry and removes the record file; and from then on — as long as every
observation of the id remains deleted — no later catch-up pass or watch cycle
ever issues another delete call for it. -/
theorem c8_single_delete_propagation (sendF : SendReq → Except String Nat)
    (delF : Nat → Except String Unit) (s : Store) (mid : Nat) (rcd : PostData)
    (hrec : s (PostId.msg mid) = some rcd) (hid : rcd.id = PostId.msg mid)
    (l : BaleLedger) (c : BaleMeta) (p : PostData) (b : Nat)
    (hc : l p.id = some c) (hcd : truthy c.deleted = false)
    (hcb : c.baleMessageId = some b)
    (hpd : truthy p.deleted = true) (hdel : delF b = Except.ok ()) :
    (((handleDeletedMessage s mid).1 (PostId.msg mid)).map PostData.deleted
        = some (some true)
      ∧ (handleDeletedMessage s mid).2 = [IngAction.removeMediaDir mid])
    ∧ baleHandle sendF delF l p
        = ⟨bset l p.id ⟨p.date, p.editDate, p.deleted, some b⟩,
           [BAction.apiDelete p.id b, BAction.persistLedger,
            BAction.removeRecordFile p.id], false⟩
    ∧ (∀ steps : List BStep,
        (∀ st ∈ steps, ∀ q ∈ bstepPosts st, q.id = p.id →
          truthy q.deleted = true) →
        ∀ a ∈ (baleRunSteps sendF delF
            (baleHandle sendF delF l p).ledger steps).2,
          isDeleteOf p.id a = false) := by
  have hbr := baleHandle_delete_branch sendF delF l p c b hc hcd hcb hpd hdel
  refine ⟨⟨?_, ?_⟩, hbr, ?_⟩
  · simp [handleDeletedMessage, hrec, sput, hid]
  · simp [handleDeletedMessage, hrec]
  · intro steps hsteps a ha
    have hstepW : ∀ (l2 : BaleLedger) (q : PostData),
        (∃ c2, l2 p.id = some c2 ∧ truthy c2.deleted = true) →
        (q.id = p.id → truthy q.deleted = true) →
        (∃ c2, (baleHandle sendF delF l2 q).ledger p.id = some c2
            ∧ truthy c2.deleted = true)
          ∧ NoTraffic p.id (baleHandle sendF delF l2 q).actions := by
      intro l2 q hI hPq
      obtain ⟨c2, hc2, hc2d⟩ := hI
      by_cases hqk : q.id = p.id
      · have hcq : l2 q.id = some c2 := by rw [hqk]; exact hc2
        rcases baleHandle_tombstone sendF delF l2 q c2 hcq hc2d (hPq hqk)
            with h | h
        · rw [h]
          exact ⟨⟨c2, hc2, hc2d⟩, noTraffic_nil _⟩
        · rw [h]
          refine ⟨⟨c2, hc2, hc2d⟩, ?_⟩
          intro a2 ha2
          rw [List.mem_singleton.mp ha2]
          exact ⟨rfl, rfl⟩
      · refine ⟨?_, ?_⟩
        · rw [baleHandle_ledger_ne sendF delF l2 q p.id (fun h => hqk h.symm)]
          exact ⟨c2, hc2, hc2d⟩
        · exact noTraffic_of_tagged (baleHandle_tagged sendF delF l2 q)
            (fun h => hqk h.symm)
    have hstepC : ∀ (l2 : BaleLedger) (q : PostData),
        (∃ c2, l2 p.id = some c2 ∧ truthy c2.deleted = true) →
        (q.id = p.id → truthy q.deleted = true) →
        truthy q.deleted = false ∧ (l2 q.id).isNone →
        (∃ c2, (syncPost sendF l2 q).ledger p.id = some c2
            ∧ truthy c2.deleted = true)
          ∧ NoTraffic p.id (syncPost sendF l2 q).actions := by
      intro l2 q hI _ hguard
      obtain ⟨c2, hc2, hc2d⟩ := hI
      by_cases hqk : q.id = p.id
      · exfalso
        rw [hqk, hc2] at hguard
        exact absurd hguard.2 (by simp)
      · refine ⟨?_, ?_⟩
        · rw [syncPost_ledger_ne sendF l2 q p.id (fun h => hqk h.symm)]
          exact ⟨c2, hc2, hc2d⟩
        · exact noTraffic_of_tagged (syncPost_tagged sendF l2 q)
            (fun h => hqk h.symm)
    have hI0 : ∃ c2, (baleHandle sendF delF l p).ledger p.id = some c2
        ∧ truthy c2.deleted = true := by
      rw [hbr]
      exact ⟨⟨p.date, p.editDate, p.deleted, some b⟩, bset_eq l p.id _, hpd⟩
    have hmain := baleRunSteps_inv sendF delF
      (fun l2 => ∃ c2, l2 p.id = some c2 ∧ truthy c2.deleted = true) p.id
      (fun q => q.id = p.id → truthy q.deleted = true)
      hstepW hstepC steps (baleHandle sendF delF l p).ledger hI0 hsteps
    exact (hmain.2 a ha).2

def c8rcd : PostData :=
  ⟨PostId.msg 4, some 50, none, some "gone", [], none, none, none,
   none, none, none⟩
def c8store : Store := sput sempty c8rcd
def c8meta : BaleMeta := ⟨some 50, none, none, some 77⟩
def c8l : BaleLedger := bset bempty (PostId.msg 4) c8meta
def c8post : PostData :=
  ⟨PostId.msg 4, some 50, none, some "gone", [], none, none, none,
   some true, none, none⟩

theorem c8_single_delete_propagation_witness :
    (c8store (PostId.msg 4) = some c8rcd
      ∧ c8rcd.id = PostId.msg 4
      ∧ c8l c8post.id = some c8meta
      ∧ truthy c8meta.deleted = false
      ∧ c8meta.baleMessageId = some 77
      ∧ truthy c8post.deleted = true
      ∧ okDel 77 = Except.ok ())
    ∧ ((((handleDeletedMessage c8store 4).1 (PostId.msg 4)).map PostData.deleted
          = some (some true)
        ∧ (handleDeletedMessage c8store 4).2 = [IngAction.removeMediaDir 4])
      ∧ baleHandle okSend okDel c8l c8post
          = ⟨bset c8l c8post.id ⟨c8post.date, c8post.editDate, c8post.deleted,
              some 77⟩,
             [BAction.apiDelete c8post.id 77, BAction.persistLedger,
              BAction.removeRecordFile c8post.id], false⟩
      ∧ (∀ steps : List BStep,
          (∀ st ∈ steps, ∀ q ∈ bstepPosts st, q.id = c8post.id →
            truthy q.deleted = true) →
          ∀ a ∈ (baleRunSteps okSend okDel
              (baleHandle okSend okDel c8l c8post).ledger steps).2,
            isDeleteOf c8post.id a = false)) :=
  ⟨⟨by decide, by decide, by decide, by decide, by decide, by decide, rfl⟩,
   c8_single_delete_propagation okSend okDel c8store 4 c8rcd (by decide)
     (by decide) c8l c8meta c8post 77 (by decide) (by decide) (by decide)
     (by decide) rfl⟩

/-! ## C9: fatal-on-send-error -/

theorem baleRunPosts_cons_failed (sendF : SendReq → Except String Nat)
    (delF : Nat → Except String Unit) (l : BaleLedger) (p : PostData)
    (ps : List PostData) (h : (baleHandle sendF delF l p).failed = true) :
    baleRunPosts sendF delF l (p :: ps) = baleHandle sendF delF l p := by
  simp only [baleRunPosts]
  rw [if_pos h]

theorem baleRunPosts_append (sendF : SendReq → Except String Nat)
    (delF : Nat → Except String Unit) (xs ys : List PostData) :
    ∀ l : BaleLedger, (baleRunPosts sendF delF l xs).failed = false →
    baleRunPosts sendF delF l (xs ++ ys)
      = ⟨(baleRunPosts sendF delF
            (baleRunPosts sendF delF l xs).ledger ys).ledger,
         (baleRunPosts sendF delF l xs).actions
           ++ (baleRunPosts sendF delF
                (baleRunPosts sendF delF l xs).ledger ys).actions,
         (baleRunPosts sendF delF
            (baleRunPosts sendF delF l xs).ledger ys).failed⟩ := by
  induction xs with
  | nil =>
    intro l _
    simp [baleRunPosts]
  | cons p rest ih =>
    intro l hx
    by_cases hf : (baleHandle sendF delF l p).failed = true
    · exfalso
      rw [baleRunPosts_cons_failed sendF delF l p rest hf] at hx
      exact absurd (hx.symm.trans hf) Bool.false_ne_true
    · have hf2 : (baleHandle sendF delF l p).failed = false :=
        Bool.eq_false_iff.mpr hf
      simp only [baleRunPosts, List.cons_append, List.append_eq, hf2] at hx ⊢
      simp only [Bool.false_eq_true, if_false] at hx ⊢
      rw [ih (baleHandle sendF delF l p).ledger hx]
      simp [List.append_assoc]

/-- C9: when a send inside the Bale watch cycle raises, the cycle aborts at
that record: the process exits with code 1, the in-memory ledger — which
does not contain the failing id — is persisted as the final action, and no
record sorted after the failing one is sent in that cycle. -/
theorem c9_fatal_on_send_error (sendF : SendReq → Except String Nat)
    (delF : Nat → Except String Unit) (st : SyncStatusRead)
    (l0 : BaleLedger) (posts pre suf : List PostData) (p : PostData)
    (hst : isTelegramSyncInProgress st = false)
    (hsplit : loadAndSortPosts posts = pre ++ p :: suf)
    (hnd : ((pre ++ p :: suf).map PostData.id).Nodup)
    (hpre : (baleRunPosts sendF delF l0 pre).failed = false)
    (hfail : (baleHandle sendF delF
        (baleRunPosts sendF delF l0 pre).ledger p).failed = true)
    (hnotin : l0 p.id = none) :
    (baleWatchCycle sendF delF st l0 posts).exitCode = some 1
    ∧ (baleWatchCycle sendF delF st l0 posts).ledger p.id = none
    ∧ (baleWatchCycle sendF delF st l0 posts).actions.getLast?
        = some BAction.persistLedger
    ∧ ∀ q ∈ suf, ∀ a ∈ (baleWatchCycle sendF delF st l0 posts).actions,
        isSendOf q.id a = false := by
  have h1 := baleRunPosts_append sendF delF pre (p :: suf) l0 hpre
  rw [baleRunPosts_cons_failed sendF delF _ p suf hfail] at h1
  have hled := baleHandle_failed_ledger sendF delF
    (baleRunPosts sendF delF l0 pre).ledger p hfail
  have hcycle : baleWatchCycle sendF delF st l0 posts
      = ⟨(baleRunPosts sendF delF l0 pre).ledger,
         ((pre ++ p :: suf).map (fun q => BAction.readRecord q.id)
            ++ ((baleRunPosts sendF delF l0 pre).actions
              ++ (baleHandle sendF delF
                    (baleRunPosts sendF delF l0 pre).ledger p).actions))
           ++ [BAction.persistLedger],
         some 1⟩ := by
    unfold baleWatchCycle
    rw [if_neg (by simp [hst]), hsplit, h1]
    unfold cycleWrap
    rw [if_pos hfail]
    rw [hled]
  -- disjointness facts from the id-nodup hypothesis
  have hnd2 := hnd
  rw [List.map_append, List.nodup_append] at hnd2
  have hqne : ∀ q ∈ pre, q.id ≠ p.id := by
    intro q hq h
    exact hnd2.2.2 (List.mem_map_of_mem PostData.id hq)
      (by rw [h]; exact List.mem_map_of_mem PostData.id (List.mem_cons_self p suf))
  have hL1 : (baleRunPosts sendF delF l0 pre).ledger p.id = none := by
    have hrun := baleRunPosts_inv sendF delF (fun l => l p.id = none) p.id
      (fun q => q.id ≠ p.id)
      (fun l q hI hq =>
        ⟨by show (baleHandle sendF delF l q).ledger p.id = none
            rw [baleHandle_ledger_ne sendF delF l q p.id (fun h => hq h.symm)]
            exact hI,
         noTraffic_of_tagged (baleHandle_tagged sendF delF l q)
           (fun h => hq h.symm)⟩)
      pre l0 hnotin hqne
    exact hrun.1
  refine ⟨by rw [hcycle], by rw [hcycle]; exact hL1, ?_, ?_⟩
  · rw [hcycle]
    exact List.getLast?_concat _
  · intro q hq a ha
    rw [hcycle] at ha
    have hq_notin_pre : ∀ x ∈ pre, x.id ≠ q.id := by
      intro x hx h
      exact hnd2.2.2 (List.mem_map_of_mem PostData.id hx)
        (by rw [h]
            exact List.mem_map_of_mem PostData.id (List.mem_cons_of_mem p hq))
    have hqp : q.id ≠ p.id := by
      have h3 := hnd2.2.1
      rw [List.map_cons, List.nodup_cons] at h3
      intro h
      exact h3.1 (h ▸ List.mem_map_of_mem PostData.id hq)
    rcases List.mem_append.mp ha with ha1 | ha1
    · rcases List.mem_append.mp ha1 with ha2 | ha2
      · exact (reads_noTraffic q.id _ a ha2).1
      · rcases List.mem_append.mp ha2 with ha3 | ha3
        · have hrun := baleRunPosts_inv sendF delF (fun _ => True) q.id
            (fun x => x.id ≠ q.id)
            (fun l x _ hx =>
              ⟨trivial, noTraffic_of_tagged (baleHandle_tagged sendF delF l x)
                (fun h => hx h.symm)⟩)
            pre l0 trivial hq_notin_pre
          exact (hrun.2 a ha3).1
        · exact eq_false_of_tag
            (((baleHandle_tagged sendF delF _ p) a ha3).1 q.id) hqp
    · rw [List.mem_singleton.mp ha1]
      rfl

def c9pa : PostData :=
  ⟨PostId.msg 1, some 1, none, some "A", [], none, none, none, none, none, none⟩
def c9pb : PostData :=
  ⟨PostId.msg 2, some 2, none, some "B", [], none, none, none, none, none, none⟩
def c9pc : PostData :=
  ⟨PostId.msg 3, some 3, none, some "C", [], none, none, none, none, none, none⟩
def c9posts : List PostData := [c9pa, c9pb, c9pc]

/-- A sender that raises exactly on the text of the middle record. -/
def c9send : SendReq → Except String Nat :=
  fun r =>
    match r with
    | SendReq.text "B" _ => Except.error "boom"
    | _ => Except.ok 7

theorem c9_fatal_on_send_error_witness :
    (isTelegramSyncInProgress SyncStatusRead.missing = false
      ∧ loadAndSortPosts c9posts = [c9pa] ++ c9pb :: [c9pc]
      ∧ (([c9pa] ++ c9pb :: [c9pc]).map PostData.id).Nodup
      ∧ (baleRunPosts c9send okDel bempty [c9pa]).failed = false
      ∧ (baleHandle c9send okDel
          (baleRunPosts c9send okDel bempty [c9pa]).ledger c9pb).failed = true
      ∧ bempty c9pb.id = none)
    ∧ ((baleWatchCycle c9send okDel SyncStatusRead.missing bempty
          c9posts).exitCode = some 1
      ∧ (baleWatchCycle c9send okDel SyncStatusRead.missing bempty
          c9posts).ledger c9pb.id = none
      ∧ (baleWatchCycle c9send okDel SyncStatusRead.missing bempty
          c9posts).actions.getLast? = some BAction.persistLedger
      ∧ ∀ q ∈ [c9pc], ∀ a ∈ (baleWatchCycle c9send okDel
          SyncStatusRead.missing bempty c9posts).actions,
          isSendOf q.id a = false) :=
  ⟨⟨by decide, by decide, by decide, by decide, by decide, by decide⟩,
   c9_fatal_on_send_error c9send okDel SyncStatusRead.missing bempty
     c9posts [c9pa] [c9pc] c9pb (by decide) (by decide) (by decide)
     (by decide) (by decide) (by decide)⟩

/-! ## C10: the ledger stores only the last media item's outbound id -/

theorem sendMediaList_ok_last (f : SendReq → Nat) (k : PostId)
    (caption : Option String) (pin : Bool) :
    ∀ (ms0 : List String) (mlast : String) (acc : Option Nat),
      (sendMediaList (fun r => Except.ok (f r)) k caption pin
        (ms0 ++ [mlast]) acc).2
        = (some (f (SendReq.file mlast caption pin)), false) := by
  intro ms0
  induction ms0 with
  | nil =>
    intro mlast acc
    simp [sendMediaList]
  | cons x rest ih =>
    intro mlast acc
    simp only [List.cons_append, sendMediaList]
    exact ih mlast _

theorem syncPost_ledger_last_media (f : SendReq → Nat) (l : BaleLedger)
    (p : PostData) (ms0 : List String) (mlast : String)
    (hm : p.media = ms0 ++ [mlast]) :
    (syncPost (fun r => Except.ok (f r)) l p).ledger p.id
      = some ⟨p.date, p.editDate, p.deleted,
              some (f (SendReq.file mlast p.text (truthy p.pinned)))⟩ := by
  have hmm : p.media.length ≠ 0 := by rw [hm]; simp
  have hlist := sendMediaList_ok_last f p.id p.text (truthy p.pinned)
    ms0 mlast none
  unfold syncPost
  rw [if_pos hmm, hm]
  unfold syncPostMedia
  rw [hlist]
  simp [finishSync, bset]

/-- C10: after the Bale syncer delivers a post with several media files, the
ledger entry keeps only the message id returned for the LAST media item sent
(each earlier item's id having been overwritten); a later delete propagation
for that record therefore issues exactly one delete call, targeting only
that one outbound message. -/
theorem c10_ledger_stores_last_media_id (f : SendReq → Nat)
    (delF : Nat → Except String Unit) (l : BaleLedger) (p : PostData)
    (ms0 : List String) (mlast : String) (hm : p.media = ms0 ++ [mlast])
    (_hms0 : ms0 ≠ [])
    (q : PostData) (hq : q.id = p.id) (hqd : truthy q.deleted = true)
    (hpd : truthy p.deleted = false)
    (hdel : delF (f (SendReq.file mlast p.text (truthy p.pinned)))
        = Except.ok ()) :
    (syncPost (fun r => Except.ok (f r)) l p).ledger p.id
        = some ⟨p.date, p.editDate, p.deleted,
                some (f (SendReq.file mlast p.text (truthy p.pinned)))⟩
    ∧ (baleHandle (fun r => Except.ok (f r)) delF
          (syncPost (fun r => Except.ok (f r)) l p).ledger q).actions
        = [BAction.apiDelete q.id
            (f (SendReq.file mlast p.text (truthy p.pinned))),
           BAction.persistLedger, BAction.removeRecordFile q.id] := by
  have hl := syncPost_ledger_last_media f l p ms0 mlast hm
  refine ⟨hl, ?_⟩
  have hcq : (syncPost (fun r => Except.ok (f r)) l p).ledger q.id
      = some ⟨p.date, p.editDate, p.deleted,
              some (f (SendReq.file mlast p.text (truthy p.pinned)))⟩ := by
    rw [hq]
    exact hl
  rw [baleHandle_delete_branch (fun r => Except.ok (f r)) delF _ q
    ⟨p.date, p.editDate, p.deleted,
     some (f (SendReq.file mlast p.text (truthy p.pinned)))⟩
    (f (SendReq.file mlast p.text (truthy p.pinned))) hcq hpd rfl hqd hdel]

def c10post : PostData :=
  ⟨PostId.msg 6, some 60, none, some "album", ["m1.jpg", "m2.mp4"], none,
   none, none, none, none, none⟩
def c10deleted : PostData :=
  ⟨PostId.msg 6, some 60, none, some "album", ["m1.jpg", "m2.mp4"], none,
   none, none, some true, none, none⟩

/-- Returns outbound id 101 for the first media file and 102 for the
second. -/
def c10f : SendReq → Nat :=
  fun r =>
    match r with
    | SendReq.file "m1.jpg" _ _ => 101
    | SendReq.file "m2.mp4" _ _ => 102
    | _ => 0

theorem c10_ledger_stores_last_media_id_witness :
    (c10post.media = ["m1.jpg"] ++ ["m2.mp4"]
      ∧ (["m1.jpg"] : List String) ≠ []
      ∧ c10deleted.id = c10post.id
      ∧ truthy c10deleted.deleted = true
      ∧ truthy c10post.deleted = false
      ∧ okDel (c10f (SendReq.file "m2.mp4" c10post.text
          (truthy c10post.pinned))) = Except.ok ())
    ∧ ((syncPost (fun r => Except.ok (c10f r)) bempty c10post).ledger
          c10post.id
        = some ⟨c10post.date, c10post.editDate, c10post.deleted,
                some (c10f (SendReq.file "m2.mp4" c10post.text
                  (truthy c10post.pinned)))⟩
      ∧ (baleHandle (fun r => Except.ok (c10f r)) okDel
            (syncPost (fun r => Except.ok (c10f r)) bempty c10post).ledger
            c10deleted).actions
        = [BAction.apiDelete c10deleted.id
            (c10f (SendReq.file "m2.mp4" c10post.text (truthy c10post.pinned))),
           BAction.persistLedger, BAction.removeRecordFile c10deleted.id]) :=
  ⟨⟨by decide, by decide, by decide, by decide, by decide, rfl⟩,
   c10_ledger_stores_last_media_id c10f okDel bempty c10post ["m1.jpg"]
     "m2.mp4" (by decide) (by decide) c10deleted (by decide) (by decide)
     (by decide) rfl⟩

end Carosync
